import Mathlib

/-!
Verification of the sudoku solving core of this repository.

Source files embedded:
* `src/lib/sudoku/sudokus.ts` — grid predicates (`isSudokuFilled`, `isSudokuValid`)
  and the branching strategies (`bruteForceStrategy`, `withValidCheckStrategy`,
  `minimumRemainingValueStrategy`).
* `src/lib/sudoku/ac3.ts` — the arc-consistency reducer `ac3` and `AC3Strategy`.

Grids are JavaScript arrays of arrays; we embed them as `List (List Nat)`
(`SimpleSudoku`) and `List (List (List Nat))` (`DomainSudoku`).  Reads mirror
JS indexing via `List.getD` with the appropriate default; in-place element
assignment is embedded by `List.set` on a value (the branching strategies copy
the rows first, so value semantics coincide; a separate heap-level embedding
below handles the aliasing question for `ac3`).

The file `src/lib/sudoku/common.ts` is not part of the provided sources; the
definitions imported from it (`SQUARE_TABLE`, `squareIndex`, `toDomainSudoku`,
`toSimpleSudoku`) are modelled from the spec, and are marked as such.
-/

namespace Sudoku

abbrev SimpleSudoku := List (List Nat)
abbrev DomainSudoku := List (List (List Nat))
abbrev Coord := Nat × Nat

/-- JS read `sudoku[i][j]` on a digit grid (out-of-range reads default to 0). -/
def cellGet (s : SimpleSudoku) (i j : Nat) : Nat := (s.getD i []).getD j 0

/-- JS write `sudoku[i][j] = v` on a (freshly copied) digit grid. -/
def cellSet (s : SimpleSudoku) (i j v : Nat) : SimpleSudoku :=
  s.set i ((s.getD i []).set j v)

/-- JS read `sudoku[y][x]` on a domain grid. -/
def domGet (d : DomainSudoku) (y x : Nat) : List Nat := (d.getD y []).getD x []

/-- JS write `sudoku[y][x] = dom` on a domain grid. -/
def domSet (d : DomainSudoku) (y x : Nat) (v : List Nat) : DomainSudoku :=
  d.set y ((d.getD y []).set x v)

/-- The grid is a 9×9 array. -/
def WF (s : List (List α)) : Prop := s.length = 9 ∧ ∀ r ∈ s, r.length = 9

instance (s : List (List α)) : Decidable (WF s) := by unfold WF; infer_instance

/-! ## sudokus.ts -/

/-- `isSudokuFilled` (sudokus.ts 4-11): no cell equals 0. -/
def isSudokuFilled (s : SimpleSudoku) : Bool :=
  (List.range 9).all fun i => (List.range 9).all fun j => cellGet s i j != 0

/-- Size of the JS `Set` built from `l` after `set.delete(0)`:
the number of distinct nonzero values of `l`. -/
def jsSetSizeNo0 (l : List Nat) : Nat := (l.dedup.filter fun n => n != 0).length

/-- One constraint-group check of `isSudokuValid`:
`set.size === group.filter(n => n !== 0).length`. -/
def groupOk (l : List Nat) : Bool := jsSetSizeNo0 l == (l.filter fun n => n != 0).length

/-- Column `i` as read by `isSudokuValid`: `sudoku.map(row => row[i])`. -/
def colList (s : SimpleSudoku) (i : Nat) : List Nat := s.map fun row => row.getD i 0

/-- Square `(i, j)` as read by `isSudokuValid` (push order `k` outer, `l` inner). -/
def squareList (s : SimpleSudoku) (i j : Nat) : List Nat :=
  (List.range 3).flatMap fun k => (List.range 3).map fun l => cellGet s (i * 3 + k) (j * 3 + l)

/-- `isSudokuValid` (sudokus.ts 13-46): rows, columns and squares each hold
no repeated nonzero value (zeros are dropped by `set.delete(0)` / the filter). -/
def isSudokuValid (s : SimpleSudoku) : Bool :=
  ((List.range 9).all fun i => groupOk (s.getD i [])) &&
  ((List.range 9).all fun i => groupOk (colList s i)) &&
  ((List.range 3).all fun i => (List.range 3).all fun j => groupOk (squareList s i j))

/-- Row-major scan order of the nested `for` loops of the strategies. -/
def rowMajor : List Coord :=
  (List.range 9).flatMap fun i => (List.range 9).map fun j => (i, j)

/-- First empty cell in row-major order (the early-`return` scan of
`bruteForceStrategy` / `withValidCheckStrategy`). -/
def firstEmpty (s : SimpleSudoku) : Option Coord :=
  rowMajor.find? fun p => cellGet s p.1 p.2 == 0

/-- Digits `1..9` in ascending order (the `for (let k = 1; k <= 9; k++)` loops). -/
def digitsAsc : List Nat := (List.range 9).map (· + 1)

/-- `bruteForceStrategy` (sudokus.ts 49-66). -/
def bruteForceStrategy (s : SimpleSudoku) : List SimpleSudoku :=
  match firstEmpty s with
  | none => []
  | some (i, j) => digitsAsc.map fun k => cellSet s i j k

/-- `withValidCheckStrategy` (sudokus.ts 69-88). -/
def withValidCheckStrategy (s : SimpleSudoku) : List SimpleSudoku :=
  match firstEmpty s with
  | none => []
  | some (i, j) => (digitsAsc.map fun k => cellSet s i j k).filter isSudokuValid

/-- `getEmptyCoordinates` (sudokus.ts 108-118). -/
def getEmptyCoordinates (s : SimpleSudoku) : List Coord :=
  (List.range 9).flatMap fun i =>
    (List.range 9).filterMap fun j => if cellGet s i j = 0 then some (i, j) else none

/-- The possibility count `9 - set.size` computed by
`minimumRemainingValueStrategy` for an empty cell `(i, j)`. -/
def mrvCount (s : SimpleSudoku) (i j : Nat) : Nat :=
  let row := s.getD i []
  let column := s.map fun r => r.getD j 0
  let square := (List.range 3).flatMap fun k =>
    (List.range 3).map fun l => cellGet s (i - i % 3 + k) (j - j % 3 + l)
  9 - jsSetSizeNo0 (row ++ column ++ square)

/-- Stable insertion used to embed JS `Array.prototype.sort` (stable per the
ECMAScript spec) with comparator `(a, b) => key a - key b`: the new element
goes after every already-placed element of smaller-or-equal key. -/
def insertLe (key : α → Nat) (a : α) : List α → List α
  | [] => [a]
  | b :: l => if key b ≤ key a then b :: insertLe key a l else a :: b :: l

/-- Stable sort by a natural-number key (embeds the stable JS sorts;
lodash `sortBy` is likewise documented stable). -/
def stableSort (key : α → Nat) (l : List α) : List α :=
  l.foldl (fun acc a => insertLe key a acc) []

/-- `minimumRemainingValueStrategy` (sudokus.ts 120-155).  When the grid has no
empty cell, `sortedPossibilities[0]` is `undefined` and the destructuring
`const [i, j] = sortedPossibilities[0]` throws a `TypeError`; this fallible
step is embedded as `none`. -/
def minimumRemainingValueStrategy (s : SimpleSudoku) : Option (List SimpleSudoku) :=
  let possibilities := (getEmptyCoordinates s).map fun p => (p.1, p.2, mrvCount s p.1 p.2)
  let sorted := stableSort (fun t => t.2.2) possibilities
  match sorted with
  | [] => none
  | (i, j, _) :: _ => some ((digitsAsc.map fun k => cellSet s i j k).filter isSudokuValid)

/-! ## ac3.ts -/

/-- Modelled from the spec: `squareIndex` of `common.ts`.  Spec §3: block index
of a coordinate is `(row / 3) * 3 + (column / 3)` with integer division; the
call sites pass `x` (column) first and `y` (row) second. -/
def squareIndex (x y : Nat) : Nat := y / 3 * 3 + x / 3

/-- Modelled from the spec: `SQUARE_TABLE` of `common.ts`.  Entry `i` lists the
nine `[x, y]` coordinates of block `i` (spec §3: the cells whose block index is
`i`), in row-major order within the block. -/
def SQUARE_TABLE : List (List Coord) :=
  (List.range 9).map fun i =>
    (List.range 3).flatMap fun k =>
      (List.range 3).map fun l => (i % 3 * 3 + l, i / 3 * 3 + k)

/-- The `uniq([...coordinatesQueue, ...constraintCoordinates])` merge at
ac3.ts 114.  lodash `uniq` compares elements with SameValueZero — reference
equality for objects — and every entry of the queue and of
`constraintCoordinates` is a freshly allocated array literal (ac3.ts 40, 57,
65, 76, 113), no reference occurring twice, so the call removes nothing: at
the level of coordinate values it is the identity, and the queue keeps
value-duplicates. -/
def uniqJS (l : List Coord) : List Coord := l

/-- `constraintCoordinates` of one `ac3` pass (ac3.ts 51-77): the `[yy, xx]`
pairs pushed for the row, the column and the square of the popped cell
`(x, y)`, in push order.  Note these pairs are row-first, unlike the
column-first `[x, y]` pairs of the queue. -/
def constraintCoordinates (x y : Nat) : List Coord :=
  ((List.range 9).filterMap fun xx => if xx = x then none else some (y, xx)) ++
  ((List.range 9).filterMap fun yy => if yy = y then none else some (yy, x)) ++
  ((SQUARE_TABLE.getD (squareIndex x y) []).filterMap fun s =>
    if s.1 = x ∧ s.2 = y then none else some (s.2, s.1))

/-- One neighbour check of the `ac3` pass (ac3.ts 79-100): if the neighbour's
domain `sudoku[yy][xx]` is a singleton `[v]`, remove the first occurrence of
`v` from the popped cell's domain `sudoku[y][x]` (JS `indexOf` + `splice`) and
record the change. -/
def reviseStep (y x : Nat) (st : DomainSudoku × Bool) (p : Coord) : DomainSudoku × Bool :=
  let domain2 := domGet st.1 p.1 p.2
  if domain2.length = 1 then
    let v := domain2.getD 0 0
    let domain1 := domGet st.1 y x
    if domain1.contains v then (domSet st.1 y x (domain1.erase v), true) else st
  else st

/-- Result of processing one popped coordinate in `ac3`. -/
inductive StepOut where
  /-- `domain1.length === 0`: return `{ sudoku, solvable: false }` (ac3.ts 104-106). -/
  | stop (d : DomainSudoku)
  /-- keep looping with the given queue and grid. -/
  | next (q : List Coord) (d : DomainSudoku)
  deriving DecidableEq

/-- The neighbour pass of `ac3` (ac3.ts 79-100): fold `reviseStep` over the
constraint pairs of the popped cell `(x, y)`, starting with `change = false`. -/
def ac3Pass (x y : Nat) (d : DomainSudoku) : DomainSudoku × Bool :=
  (constraintCoordinates x y).foldl (reviseStep y x) (d, false)

/-- The body of the `while` loop of `ac3` (ac3.ts 44-116) for popped
coordinate `(x, y)` and remaining queue `q`: run the neighbour pass; if the
cell's domain emptied, stop unsolvable; if it changed, push `[x, y]` and the
constraint pairs through the reference-based `uniq` merge of ac3.ts 114
(`uniqJS`), which removes nothing. -/
def ac3Step (x y : Nat) (q : List Coord) (d : DomainSudoku) : StepOut :=
  let st := ac3Pass x y d
  if (domGet st.1 y x).length = 0 then .stop st.1
  else if st.2 then .next (uniqJS (q ++ [(x, y)] ++ constraintCoordinates x y)) st.1
  else .next q st.1

/-- The initial work queue of `ac3` (ac3.ts 37-42): every `[x, y]`, `y` outer. -/
def initQueue : List Coord :=
  (List.range 9).flatMap fun y => (List.range 9).map fun x => (x, y)

/-- The `while (coordinatesQueue.length > 0)` loop of `ac3`, with explicit
fuel (`none` means the fuel ran out; `fuelBound` below always suffices).
The returned `Bool` is the `solvable` flag; the constant `iterations: 1` field
of the source is omitted. -/
def ac3Loop : Nat → List Coord → DomainSudoku → Option (DomainSudoku × Bool)
  | 0, _, _ => none
  | _ + 1, [], d => some (d, true)
  | fuel + 1, c :: q, d =>
    match ac3Step c.1 c.2 q d with
    | .stop d' => some (d', false)
    | .next q' d' => ac3Loop fuel q' d'

/-- The defensive copy `sudoku.map(r => r.map(c => c.slice()))` (ac3.ts 21).
On values it is the identity; the heap-level embedding below accounts for the
fresh allocation. -/
def copyGrid (d : DomainSudoku) : DomainSudoku := d.map fun r => r.map fun c => c

/-- Total number of candidate entries of a domain grid (termination measure). -/
def totalSize (d : DomainSudoku) : Nat := (d.map fun r => (r.map List.length).sum).sum

/-- Fuel that always suffices for `ac3Loop` (proved in `ac3Loop_isSome`). -/
def fuelBound (d : DomainSudoku) : Nat := 26 * totalSize d + 82

/-- `ac3` (ac3.ts 16-119): copy the grid, seed the queue with all 81
coordinates, and run the propagation loop. -/
def ac3 (d : DomainSudoku) : DomainSudoku × Bool :=
  (ac3Loop (fuelBound (copyGrid d)) initQueue (copyGrid d)).getD (copyGrid d, false)

/-- Modelled from the spec: `toDomainSudoku` of `common.ts`.  Spec §4.2: a
nonzero cell's domain is the singleton of its digit, an empty cell's domain is
`{1,...,9}` (kept in ascending order per the Domain Grid invariant of §3). -/
def toDomainSudoku (s : SimpleSudoku) : DomainSudoku :=
  s.map fun row => row.map fun v => if v = 0 then digitsAsc else [v]

/-- Modelled from the spec: `toSimpleSudoku` of `common.ts`.  Spec §4.2
(`toGrid`): a singleton domain projects to its member, anything else to 0. -/
def toSimpleSudoku (d : DomainSudoku) : SimpleSudoku :=
  d.map fun row => row.map fun dom => if dom.length = 1 then dom.getD 0 0 else 0

/-- The branching part of `AC3Strategy` (ac3.ts 129-172), taking the reducer
output `r = { sudoku, solvable }`: return no children when unsolvable; return
the projected grid alone when it is a filled valid solution; otherwise sort
the cells of domain size above one by domain size (lodash `sortBy`, stable)
and split on the first one.  The JS guard `if (!emptyCellCoordinates)
return []` is dead code (an array is always truthy) and is not modelled.
`const [rowIndex, cellIndex] = sortedPossibleRowAndCells[0]` throws a
`TypeError` when the list is empty; this fallible step is embedded as
`none`. -/
def domainSplit (r : DomainSudoku × Bool) : Option (List SimpleSudoku) :=
  if r.2 = false then some []
  else if isSudokuFilled (toSimpleSudoku r.1) && isSudokuValid (toSimpleSudoku r.1) then
    some [toSimpleSudoku r.1]
  else
    match stableSort (fun p : Coord => (domGet r.1 p.1 p.2).length)
        ((List.range 9).flatMap fun i => (List.range 9).filterMap fun j =>
          if 1 < (domGet r.1 i j).length then some (i, j) else none) with
    | [] => none
    | (i, j) :: _ => some ((domGet r.1 i j).map fun n => cellSet (toSimpleSudoku r.1) i j n)

/-- `AC3Strategy` (ac3.ts 122-173): run the reducer on the domain grid of the
input and branch on its output. -/
def AC3Strategy (s : SimpleSudoku) : Option (List SimpleSudoku) :=
  domainSplit (ac3 (toDomainSudoku s))

/-! ## Lemmas about grid reads and writes -/

theorem getD_set_ne {l : List α} {i j : Nat} (h : i ≠ j) (a d : α) :
    (l.set i a).getD j d = l.getD j d := by
  simp [List.getD_eq_getElem?_getD, List.getElem?_set_ne h]

theorem getD_set_self {l : List α} {i : Nat} (h : i < l.length) (a d : α) :
    (l.set i a).getD i d = a := by
  simp [List.getD_eq_getElem?_getD, List.getElem?_set_self h]

theorem domGet_domSet_ne {d : DomainSudoku} {y x r c : Nat} (h : ¬(r = y ∧ c = x))
    (v : List Nat) : domGet (domSet d y x v) r c = domGet d r c := by
  unfold domGet domSet
  by_cases hr : r = y
  · subst hr
    have hc : c ≠ x := fun hc => h ⟨rfl, hc⟩
    by_cases hy : r < d.length
    · rw [getD_set_self hy, getD_set_ne (Ne.symm hc)]
    · rw [List.set_eq_of_length_le (Nat.le_of_not_lt hy)]
  · rw [getD_set_ne (Ne.symm hr)]

theorem domGet_domSet_self {d : DomainSudoku} {y x : Nat} (hy : y < d.length)
    (hx : x < (d.getD y []).length) (v : List Nat) :
    domGet (domSet d y x v) y x = v := by
  unfold domGet domSet
  rw [getD_set_self hy, getD_set_self hx]

theorem length_domSet (d : DomainSudoku) (y x : Nat) (v : List Nat) :
    (domSet d y x v).length = d.length := by
  simp [domSet]

theorem row_length_domSet (d : DomainSudoku) (y x : Nat) (v : List Nat) (r : Nat) :
    ((domSet d y x v).getD r []).length = (d.getD r []).length := by
  unfold domSet
  by_cases hr : r = y
  · subst hr
    by_cases hy : r < d.length
    · rw [getD_set_self hy]; simp
    · rw [List.set_eq_of_length_le (Nat.le_of_not_lt hy)]
  · rw [getD_set_ne (Ne.symm hr)]

theorem cellGet_cellSet_ne {s : SimpleSudoku} {i j r c : Nat} (h : ¬(r = i ∧ c = j))
    (v : Nat) : cellGet (cellSet s i j v) r c = cellGet s r c := by
  unfold cellGet cellSet
  by_cases hr : r = i
  · subst hr
    have hc : c ≠ j := fun hc => h ⟨rfl, hc⟩
    by_cases hy : r < s.length
    · rw [getD_set_self hy, getD_set_ne (Ne.symm hc)]
    · rw [List.set_eq_of_length_le (Nat.le_of_not_lt hy)]
  · rw [getD_set_ne (Ne.symm hr)]

theorem cellGet_cellSet_self {s : SimpleSudoku} {i j : Nat} (hi : i < s.length)
    (hj : j < (s.getD i []).length) (v : Nat) :
    cellGet (cellSet s i j v) i j = v := by
  unfold cellGet cellSet
  rw [getD_set_self hi, getD_set_self hj]

/-- A 9×9 grid read inside its bounds hits an actual row of length 9. -/
theorem WF.row_length {s : List (List α)} (h : WF s) {i : Nat} (hi : i < 9) :
    (s.getD i []).length = 9 := by
  have hlen : i < s.length := by rw [h.1]; exact hi
  rw [List.getD_eq_getElem?_getD, List.getElem?_eq_getElem hlen]
  exact h.2 _ (List.getElem_mem hlen)

/-! ## The constraint-group check `groupOk` -/

/-- The JS `Set` size equals the length of the deduplicated nonzero filter. -/
theorem jsSetSizeNo0_eq (l : List Nat) :
    jsSetSizeNo0 l = ((l.filter fun n => n != 0).dedup).length := by
  have hA : (l.dedup.filter fun n => n != 0).Nodup := (List.nodup_dedup l).filter _
  have hB : ((l.filter fun n => n != 0).dedup).Nodup := List.nodup_dedup _
  have hmem : ∀ x, x ∈ (l.dedup.filter fun n => n != 0) ↔
      x ∈ (l.filter fun n => n != 0).dedup := by
    intro x; simp [List.mem_filter, List.mem_dedup]
  have h1 := (hA.subperm fun x hx => (hmem x).1 hx).length_le
  have h2 := (hB.subperm fun x hx => (hmem x).2 hx).length_le
  exact Nat.le_antisymm h1 h2

/-- `groupOk` succeeds exactly when the nonzero entries of the group are
pairwise distinct. -/
theorem groupOk_iff_nodup (l : List Nat) :
    groupOk l = true ↔ (l.filter fun n => n != 0).Nodup := by
  rw [groupOk, beq_iff_eq, jsSetSizeNo0_eq]
  constructor
  · intro h
    have := (List.dedup_sublist (l.filter fun n => n != 0)).eq_of_length h
    rw [← this]; exact List.nodup_dedup _
  · intro h; rw [List.dedup_eq_self.mpr h]

/-- Positional reading of `groupOk`: inside a passing group, two distinct
positions cannot hold the same nonzero digit. -/
theorem groupOk_getD_ne {g : List Nat} (hg : groupOk g = true) {i j : Nat}
    (hi : i < g.length) (hj : j < g.length) (hij : i ≠ j) (h0 : g.getD i 0 ≠ 0) :
    g.getD i 0 ≠ g.getD j 0 := by
  intro heq
  set v := g.getD i 0 with hv
  have hdup : g.Duplicate v := by
    rw [List.duplicate_iff_exists_distinct_get]
    rcases Nat.lt_or_ge i j with hlt | hge
    · exact ⟨⟨i, hi⟩, ⟨j, hj⟩, hlt, by
        rw [hv, List.getD_eq_getElem _ _ hi]; rfl, by
        rw [heq, List.getD_eq_getElem _ _ hj]; rfl⟩
    · have hlt : j < i := Nat.lt_of_le_of_ne hge (Ne.symm hij)
      exact ⟨⟨j, hj⟩, ⟨i, hi⟩, hlt, by
        rw [heq, List.getD_eq_getElem _ _ hj]; rfl, by
        rw [hv, List.getD_eq_getElem _ _ hi]; rfl⟩
  have hcount : 2 ≤ g.count v := List.duplicate_iff_two_le_count.mp hdup
  have hpv : (v != 0) = true := by simpa using h0
  have hcf : (g.filter fun n => n != 0).count v = g.count v :=
    List.count_filter hpv
  have hnd := (groupOk_iff_nodup g).mp hg
  have := List.nodup_iff_count_le_one.mp hnd v
  omega

/-! ## Validity and filledness, cell by cell -/

theorem filled_cell {s : SimpleSudoku} (h : isSudokuFilled s = true) {i j : Nat}
    (hi : i < 9) (hj : j < 9) : cellGet s i j ≠ 0 := by
  have := List.all_eq_true.mp h i (List.mem_range.mpr hi)
  have := List.all_eq_true.mp this j (List.mem_range.mpr hj)
  simpa using this

theorem valid_row {s : SimpleSudoku} (h : isSudokuValid s = true) {i : Nat}
    (hi : i < 9) : groupOk (s.getD i []) = true := by
  have h1 := (Bool.and_eq_true _ _).mp ((Bool.and_eq_true _ _).mp h).1
  exact List.all_eq_true.mp h1.1 i (List.mem_range.mpr hi)

theorem valid_col {s : SimpleSudoku} (h : isSudokuValid s = true) {i : Nat}
    (hi : i < 9) : groupOk (colList s i) = true := by
  have h1 := (Bool.and_eq_true _ _).mp ((Bool.and_eq_true _ _).mp h).1
  exact List.all_eq_true.mp h1.2 i (List.mem_range.mpr hi)

theorem valid_square {s : SimpleSudoku} (h : isSudokuValid s = true) {i j : Nat}
    (hi : i < 3) (hj : j < 3) : groupOk (squareList s i j) = true := by
  have h2 := ((Bool.and_eq_true _ _).mp h).2
  have := List.all_eq_true.mp h2 i (List.mem_range.mpr hi)
  exact List.all_eq_true.mp this j (List.mem_range.mpr hj)

theorem colList_getD {s : SimpleSudoku} (hWF : WF s) {r : Nat} (hr : r < 9) (c : Nat) :
    (colList s c).getD r 0 = cellGet s r c := by
  have hlen : r < s.length := by rw [hWF.1]; exact hr
  have hmap : r < (colList s c).length := by simpa [colList] using hlen
  unfold cellGet
  rw [List.getD_eq_getElem _ _ hmap, List.getD_eq_getElem _ _ hlen]
  simp [colList]

theorem squareList_getD (s : SimpleSudoku) (i j : Nat) {k l : Nat}
    (hk : k < 3) (hl : l < 3) :
    (squareList s i j).getD (k * 3 + l) 0 = cellGet s (i * 3 + k) (j * 3 + l) := by
  interval_cases k <;> interval_cases l <;> rfl

theorem squareList_length (s : SimpleSudoku) (i j : Nat) :
    (squareList s i j).length = 9 := rfl

/-- In a filled valid grid, two distinct cells of a common constraint group
(same row, same column or same block) hold different digits. -/
theorem solution_distinct {s : SimpleSudoku} (hWF : WF s)
    (hval : isSudokuValid s = true) (hfill : isSudokuFilled s = true)
    {r c r' c' : Nat} (hr : r < 9) (hc : c < 9) (hr' : r' < 9) (hc' : c' < 9)
    (hne : ¬(r = r' ∧ c = c'))
    (hgrp : r = r' ∨ c = c' ∨ squareIndex c r = squareIndex c' r') :
    cellGet s r c ≠ cellGet s r' c' := by
  rcases hgrp with hrow | hcol | hblk
  · subst hrow
    have hcc : c ≠ c' := fun h => hne ⟨rfl, h⟩
    have hlen := hWF.row_length hr
    have := groupOk_getD_ne (valid_row hval hr) (i := c) (j := c')
      (by omega) (by omega) hcc (filled_cell hfill hr hc)
    exact this
  · subst hcol
    have hrr : r ≠ r' := fun h => hne ⟨h, rfl⟩
    have hlen : (colList s c).length = 9 := by
      simp [colList, hWF.1]
    have := groupOk_getD_ne (valid_col hval hc) (i := r) (j := r')
      (by omega) (by omega) hrr
      (by rw [colList_getD hWF hr]; exact filled_cell hfill hr hc)
    rw [colList_getD hWF hr, colList_getD hWF hr'] at this
    exact this
  · unfold squareIndex at hblk
    have hb1 : r / 3 = r' / 3 := by omega
    have hb2 : c / 3 = c' / 3 := by omega
    have hpos : r % 3 * 3 + c % 3 ≠ r' % 3 * 3 + c' % 3 := by
      intro h
      exact hne ⟨by omega, by omega⟩
    have h1 := squareList_getD s (r / 3) (c / 3) (k := r % 3) (l := c % 3)
      (by omega) (by omega)
    have h2 := squareList_getD s (r / 3) (c / 3) (k := r' % 3) (l := c' % 3)
      (by omega) (by omega)
    rw [show r / 3 * 3 + r % 3 = r by omega, show c / 3 * 3 + c % 3 = c by omega] at h1
    rw [hb1, hb2] at h2
    rw [show r' / 3 * 3 + r' % 3 = r' by omega,
      show c' / 3 * 3 + c' % 3 = c' by omega] at h2
    rw [← hb1, ← hb2] at h2
    have := groupOk_getD_ne (valid_square hval (i := r / 3) (j := c / 3)
        (by omega) (by omega))
      (i := r % 3 * 3 + c % 3) (j := r' % 3 * 3 + c' % 3)
      (by rw [squareList_length]; omega)
      (by rw [squareList_length]; omega) hpos
      (by rw [h1]; exact filled_cell hfill hr hc)
    rw [h1, h2] at this
    exact this

/-- Converse of `groupOk_getD_ne`: positional pairwise distinctness of the
nonzero entries makes the group check succeed. -/
theorem groupOk_of_pairwise {g : List Nat}
    (h : ∀ i j, i < g.length → j < g.length → i ≠ j →
      g.getD i 0 ≠ 0 → g.getD j 0 ≠ 0 → g.getD i 0 ≠ g.getD j 0) :
    groupOk g = true := by
  rw [groupOk_iff_nodup, List.nodup_iff_count_le_one]
  intro v
  by_contra hc
  have h2 : 2 ≤ (g.filter fun n => n != 0).count v := by omega
  have hvmem : v ∈ g.filter fun n => n != 0 :=
    List.count_pos_iff.mp (by omega)
  have hv : v ≠ 0 := by simpa using (List.mem_filter.mp hvmem).2
  have hcg : 2 ≤ g.count v := by
    rw [List.count_filter (by simpa using hv)] at h2; exact h2
  obtain ⟨n, m, hnm, hvn, hvm⟩ :=
    List.duplicate_iff_exists_distinct_get.mp
      (List.duplicate_iff_two_le_count.mpr hcg)
  have hgn : g.getD (n : Nat) 0 = v := by
    rw [List.getD_eq_getElem _ _ n.isLt, hvn]; rfl
  have hgm : g.getD (m : Nat) 0 = v := by
    rw [List.getD_eq_getElem _ _ m.isLt, hvm]; rfl
  exact h n m n.isLt m.isLt (Nat.ne_of_lt hnm) (hgn ▸ hv) (hgm ▸ hv)
    (by rw [hgn, hgm])

/-- The all-zero grid. -/
def zeroGrid : SimpleSudoku := List.replicate 9 (List.replicate 9 0)

/-- Claim C9: `isSudokuValid` holds iff in each of the 27 constraint groups
(9 rows, 9 columns, 9 blocks) the nonzero digits are pairwise distinct, zeros
being ignored; the all-zero grid is valid and not filled. -/
theorem C9_valid_iff_groups_distinct (s : SimpleSudoku) (hWF : WF s) :
    (isSudokuValid s = true ↔
      ((∀ r c c', r < 9 → c < 9 → c' < 9 → c ≠ c' →
          cellGet s r c ≠ 0 → cellGet s r c' ≠ 0 →
          cellGet s r c ≠ cellGet s r c') ∧
       (∀ c r r', c < 9 → r < 9 → r' < 9 → r ≠ r' →
          cellGet s r c ≠ 0 → cellGet s r' c ≠ 0 →
          cellGet s r c ≠ cellGet s r' c) ∧
       (∀ r c r' c', r < 9 → c < 9 → r' < 9 → c' < 9 →
          r / 3 = r' / 3 → c / 3 = c' / 3 → ¬(r = r' ∧ c = c') →
          cellGet s r c ≠ 0 → cellGet s r' c' ≠ 0 →
          cellGet s r c ≠ cellGet s r' c'))) ∧
    isSudokuValid zeroGrid = true ∧ isSudokuFilled zeroGrid = false := by
  refine ⟨⟨fun hval => ?_, fun hspec => ?_⟩, by decide, by decide⟩
  · refine ⟨fun r c c' hr hc hc' hcc h0 _ => ?_,
      fun c r r' hc hr hr' hrr h0 _ => ?_,
      fun r c r' c' hr hc hr' hc' hb1 hb2 hne h0 _ => ?_⟩
    · have hlen := hWF.row_length hr
      exact groupOk_getD_ne (valid_row hval hr) (i := c) (j := c')
        (by omega) (by omega) hcc h0
    · have h := groupOk_getD_ne (valid_col hval hc) (i := r) (j := r')
        (by simp [colList, hWF.1]; omega) (by simp [colList, hWF.1]; omega) hrr
        (by rw [colList_getD hWF hr]; exact h0)
      rw [colList_getD hWF hr, colList_getD hWF hr'] at h
      exact h
    · have h1 := squareList_getD s (r / 3) (c / 3) (k := r % 3) (l := c % 3)
        (by omega) (by omega)
      have h2 := squareList_getD s (r / 3) (c / 3) (k := r' % 3) (l := c' % 3)
        (by omega) (by omega)
      rw [show r / 3 * 3 + r % 3 = r by omega,
        show c / 3 * 3 + c % 3 = c by omega] at h1
      rw [hb1, hb2] at h2
      rw [show r' / 3 * 3 + r' % 3 = r' by omega,
        show c' / 3 * 3 + c' % 3 = c' by omega] at h2
      rw [← hb1, ← hb2] at h2
      have hpos : r % 3 * 3 + c % 3 ≠ r' % 3 * 3 + c' % 3 := by
        intro h; exact hne ⟨by omega, by omega⟩
      have h := groupOk_getD_ne (valid_square hval (i := r / 3) (j := c / 3)
          (by omega) (by omega))
        (i := r % 3 * 3 + c % 3) (j := r' % 3 * 3 + c' % 3)
        (by rw [squareList_length]; omega) (by rw [squareList_length]; omega)
        hpos (by rw [h1]; exact h0)
      rw [h1, h2] at h
      exact h
  · obtain ⟨hrow, hcol, hblk⟩ := hspec
    unfold isSudokuValid
    rw [Bool.and_eq_true, Bool.and_eq_true]
    refine ⟨⟨List.all_eq_true.mpr fun i hi => ?_, List.all_eq_true.mpr fun i hi => ?_⟩,
      List.all_eq_true.mpr fun i hi => List.all_eq_true.mpr fun j hj => ?_⟩
    · rw [List.mem_range] at hi
      apply groupOk_of_pairwise
      intro a b ha hb hab h0a h0b
      have hlen := hWF.row_length hi
      exact hrow i a b hi (by omega) (by omega) hab h0a h0b
    · rw [List.mem_range] at hi
      apply groupOk_of_pairwise
      intro a b ha hb hab h0a h0b
      have ha9 : a < 9 := by simpa [colList, hWF.1] using ha
      have hb9 : b < 9 := by simpa [colList, hWF.1] using hb
      rw [colList_getD hWF ha9] at h0a
      rw [colList_getD hWF hb9] at h0b
      rw [colList_getD hWF ha9, colList_getD hWF hb9]
      exact hcol i a b hi ha9 hb9 hab h0a h0b
    · rw [List.mem_range] at hi hj
      apply groupOk_of_pairwise
      intro a b ha hb hab h0a h0b
      rw [squareList_length] at ha hb
      have hga := squareList_getD s i j (k := a / 3) (l := a % 3)
        (by omega) (by omega)
      have hgb := squareList_getD s i j (k := b / 3) (l := b % 3)
        (by omega) (by omega)
      rw [show a / 3 * 3 + a % 3 = a by omega] at hga
      rw [show b / 3 * 3 + b % 3 = b by omega] at hgb
      rw [hga] at h0a ⊢
      rw [hgb] at h0b ⊢
      refine hblk (i * 3 + a / 3) (j * 3 + a % 3) (i * 3 + b / 3) (j * 3 + b % 3)
        (by omega) (by omega) (by omega) (by omega) (by omega) (by omega)
        (fun ⟨e1, e2⟩ => hab (by omega)) h0a h0b

/-- Witness for C9 at the all-zero grid. -/
theorem C9_valid_iff_groups_distinct_witness :
    (isSudokuValid zeroGrid = true ↔
      ((∀ r c c', r < 9 → c < 9 → c' < 9 → c ≠ c' →
          cellGet zeroGrid r c ≠ 0 → cellGet zeroGrid r c' ≠ 0 →
          cellGet zeroGrid r c ≠ cellGet zeroGrid r c') ∧
       (∀ c r r', c < 9 → r < 9 → r' < 9 → r ≠ r' →
          cellGet zeroGrid r c ≠ 0 → cellGet zeroGrid r' c ≠ 0 →
          cellGet zeroGrid r c ≠ cellGet zeroGrid r' c) ∧
       (∀ r c r' c', r < 9 → c < 9 → r' < 9 → c' < 9 →
          r / 3 = r' / 3 → c / 3 = c' / 3 → ¬(r = r' ∧ c = c') →
          cellGet zeroGrid r c ≠ 0 → cellGet zeroGrid r' c' ≠ 0 →
          cellGet zeroGrid r c ≠ cellGet zeroGrid r' c'))) ∧
    isSudokuValid zeroGrid = true ∧ isSudokuFilled zeroGrid = false :=
  C9_valid_iff_groups_distinct zeroGrid (by decide)

/-! ## Concrete grids used as witnesses and counterexamples -/

/-- A complete valid sudoku (the cyclic pattern). -/
def SFull : SimpleSudoku :=
  [[1, 2, 3, 4, 5, 6, 7, 8, 9],
   [4, 5, 6, 7, 8, 9, 1, 2, 3],
   [7, 8, 9, 1, 2, 3, 4, 5, 6],
   [2, 3, 4, 5, 6, 7, 8, 9, 1],
   [5, 6, 7, 8, 9, 1, 2, 3, 4],
   [8, 9, 1, 2, 3, 4, 5, 6, 7],
   [3, 4, 5, 6, 7, 8, 9, 1, 2],
   [6, 7, 8, 9, 1, 2, 3, 4, 5],
   [9, 1, 2, 3, 4, 5, 6, 7, 8]]

/-- `SFull` with cells (0,0) and (4,4) blanked; two independent holes that
constraint propagation alone refills. -/
def G2 : SimpleSudoku := cellSet (cellSet SFull 0 0 0) 4 4 0

/-- The all-ones grid: fully filled (and invalid). -/
def allOnes : SimpleSudoku := List.replicate 9 (List.replicate 9 1)

/-! ## Scan-order membership lemmas -/

theorem mem_rowMajor {p : Coord} : p ∈ rowMajor ↔ p.1 < 9 ∧ p.2 < 9 := by
  cases p with
  | mk i j =>
    constructor
    · intro h
      have : ∀ q ∈ rowMajor, q.1 < 9 ∧ q.2 < 9 := by decide
      exact this _ h
    · rintro ⟨hi, hj⟩
      unfold rowMajor
      rw [List.mem_flatMap]
      exact ⟨i, List.mem_range.mpr hi, List.mem_map.mpr ⟨j, List.mem_range.mpr hj, rfl⟩⟩

theorem mem_getEmptyCoordinates {s : SimpleSudoku} {p : Coord} :
    p ∈ getEmptyCoordinates s ↔ p.1 < 9 ∧ p.2 < 9 ∧ cellGet s p.1 p.2 = 0 := by
  cases p with
  | mk i j =>
    unfold getEmptyCoordinates
    rw [List.mem_flatMap]
    constructor
    · rintro ⟨a, ha, hmem⟩
      rw [List.mem_filterMap] at hmem
      obtain ⟨b, hb, heq⟩ := hmem
      split at heq
      · obtain ⟨rfl, rfl⟩ := Prod.mk.injEq .. ▸ Option.some.inj heq
        exact ⟨List.mem_range.mp ha, List.mem_range.mp hb, by assumption⟩
      · exact absurd heq (by simp)
    · rintro ⟨hi, hj, h0⟩
      refine ⟨i, List.mem_range.mpr hi, List.mem_filterMap.mpr ⟨j, List.mem_range.mpr hj, ?_⟩⟩
      rw [if_pos h0]

/-- An empty cell in range makes `getEmptyCoordinates` nonempty, and
conversely. -/
theorem getEmptyCoordinates_eq_nil {s : SimpleSudoku} :
    getEmptyCoordinates s = [] ↔ ∀ i j, i < 9 → j < 9 → cellGet s i j ≠ 0 := by
  rw [List.eq_nil_iff_forall_not_mem]
  constructor
  · intro h i j hi hj h0
    exact h (i, j) (mem_getEmptyCoordinates.mpr ⟨hi, hj, h0⟩)
  · intro h p hp
    obtain ⟨h1, h2, h3⟩ := mem_getEmptyCoordinates.mp hp
    exact h _ _ h1 h2 h3

/-- Claim C4 (code bug): on a grid with no empty cell, `bruteForceStrategy`
and `withValidCheckStrategy` return the empty list of children, but
`minimumRemainingValueStrategy` destructures `sortedPossibilities[0]`, which
is `undefined`, and throws a `TypeError` (embedded as `none`) instead of
returning an empty sequence. -/
theorem C4_filled_grid_strategies (s : SimpleSudoku) (h : isSudokuFilled s = true) :
    bruteForceStrategy s = [] ∧ withValidCheckStrategy s = [] ∧
    minimumRemainingValueStrategy s = none := by
  have hfe : firstEmpty s = none := by
    rw [firstEmpty, List.find?_eq_none]
    intro p hp
    have hb := mem_rowMajor.mp hp
    simpa using filled_cell h hb.1 hb.2
  have hec : getEmptyCoordinates s = [] :=
    getEmptyCoordinates_eq_nil.mpr fun i j hi hj => filled_cell h hi hj
  refine ⟨?_, ?_, ?_⟩
  · rw [bruteForceStrategy, hfe]
  · rw [withValidCheckStrategy, hfe]
  · rw [minimumRemainingValueStrategy, hec]
    rfl

/-- Witness for C4: the all-ones grid is filled; the brute-force strategies
return no children while the MRV strategy fails. -/
theorem C4_filled_grid_strategies_witness :
    bruteForceStrategy allOnes = [] ∧ withValidCheckStrategy allOnes = [] ∧
    minimumRemainingValueStrategy allOnes = none :=
  C4_filled_grid_strategies allOnes (by decide)

/-! ## The head of a stable sort is the first element of minimal key -/

/-- First element of minimal key of a list (ties go to the earlier element). -/
def firstMinBy (key : α → Nat) : List α → Option α
  | [] => none
  | a :: l =>
    match firstMinBy key l with
    | none => some a
    | some b => if key a ≤ key b then some a else some b

/-- Pick the smaller-key element of two optional values; the first argument
wins ties. -/
def minPref (key : α → Nat) : Option α → Option α → Option α
  | none, o => o
  | some b, none => some b
  | some b, some a => if key b ≤ key a then some b else some a

theorem minPref_assoc (key : α → Nat) (h x y : Option α) :
    minPref key (minPref key h x) y = minPref key h (minPref key x y) := by
  cases h <;> cases x <;> cases y <;> simp only [minPref] <;>
    split_ifs <;> simp only [minPref] <;> split_ifs <;> first | rfl | omega

theorem firstMinBy_cons (key : α → Nat) (a : α) (l : List α) :
    firstMinBy key (a :: l) = minPref key (some a) (firstMinBy key l) := by
  rw [firstMinBy]
  cases firstMinBy key l <;> simp [minPref]

theorem insertLe_head? (key : α → Nat) (a : α) (l : List α) :
    (insertLe key a l).head? = minPref key l.head? (some a) := by
  cases l with
  | nil => simp [insertLe, minPref]
  | cons b t =>
    rw [insertLe]
    split_ifs with h <;> simp [minPref, h]

theorem foldl_insertLe_head? (key : α → Nat) (l acc : List α) :
    (l.foldl (fun ac x => insertLe key x ac) acc).head? =
      minPref key acc.head? (firstMinBy key l) := by
  induction l generalizing acc with
  | nil => cases acc <;> simp [firstMinBy, minPref]
  | cons a l ih =>
    rw [List.foldl_cons, ih, insertLe_head?, firstMinBy_cons, minPref_assoc]

theorem stableSort_head? (key : α → Nat) (l : List α) :
    (stableSort key l).head? = firstMinBy key l := by
  rw [stableSort, foldl_insertLe_head?]
  cases firstMinBy key l <;> simp [minPref]

theorem mem_insertLe (key : α → Nat) (a x : α) (l : List α) :
    x ∈ insertLe key a l ↔ x = a ∨ x ∈ l := by
  induction l with
  | nil => simp [insertLe]
  | cons b t ih =>
    rw [insertLe]
    split_ifs with h
    · simp only [List.mem_cons, ih]
      tauto
    · simp [List.mem_cons]

theorem mem_stableSort (key : α → Nat) (l : List α) (x : α) :
    x ∈ stableSort key l ↔ x ∈ l := by
  suffices h : ∀ acc, x ∈ l.foldl (fun ac a => insertLe key a ac) acc ↔ x ∈ acc ∨ x ∈ l by
    rw [stableSort, h]; simp
  induction l with
  | nil => intro acc; simp
  | cons a t ih =>
    intro acc
    rw [List.foldl_cons, ih, mem_insertLe]
    simp only [List.mem_cons]
    tauto

theorem firstMinBy_ne_none (key : α → Nat) (a : α) (l : List α) :
    firstMinBy key (a :: l) ≠ none := by
  rw [firstMinBy_cons]
  cases firstMinBy key l <;> simp only [minPref] <;> (try split_ifs) <;> simp

theorem firstMinBy_spec {key : α → Nat} {l : List α} {a : α}
    (h : firstMinBy key l = some a) :
    ∃ l₁ l₂, l = l₁ ++ a :: l₂ ∧ (∀ b ∈ l, key a ≤ key b) ∧
      ∀ b ∈ l₁, key a < key b := by
  induction l generalizing a with
  | nil => simp [firstMinBy] at h
  | cons c t ih =>
    rw [firstMinBy_cons] at h
    rcases ht : firstMinBy key t with _ | b <;> rw [ht] at h
    · simp only [minPref] at h
      cases h
      have hte : t = [] := by
        cases t with
        | nil => rfl
        | cons u v => exact absurd ht (firstMinBy_ne_none key u v)
      subst hte
      exact ⟨[], [], rfl, by simp, by simp⟩
    · simp only [minPref] at h
      obtain ⟨t₁, t₂, hdecomp, hmin, hstrict⟩ := ih ht
      split_ifs at h with hle
      · cases h
        refine ⟨[], t, rfl, ?_, by simp⟩
        intro b hb
        rcases List.mem_cons.mp hb with rfl | hb
        · exact Nat.le_refl _
        · exact Nat.le_trans hle (hmin b hb)
      · cases h
        refine ⟨c :: t₁, t₂, by simp [hdecomp], ?_, ?_⟩
        · intro x hx
          rcases List.mem_cons.mp hx with rfl | hx
          · omega
          · exact hmin x hx
        · intro x hx
          rcases List.mem_cons.mp hx with rfl | hx
          · omega
          · exact hstrict x hx

theorem firstMinBy_map (key : β → Nat) (f : α → β) (l : List α) :
    firstMinBy key (l.map f) = Option.map f (firstMinBy (fun a => key (f a)) l) := by
  induction l with
  | nil => simp [firstMinBy]
  | cons a t ih =>
    rw [List.map_cons, firstMinBy, firstMinBy, ih]
    cases firstMinBy (fun a => key (f a)) t <;> simp <;> split_ifs <;> simp

/-! ## Claim C5: the MRV strategy -/

/-- A list of length 9 is the table of its own reads at indices 0..8. -/
theorem eq_range_map_getD {l : List Nat} (h : l.length = 9) :
    l = (List.range 9).map fun k => l.getD k 0 := by
  apply List.ext_getElem (by simp [h])
  intro k h1 h2
  rw [List.getElem_map, List.getElem_range,
    List.getD_eq_getElem _ _ (show k < l.length by omega)]

/-- The digits of the row, the column and the block of cell `(i, j)`, as the
claim describes them (cell reads at explicit coordinates). -/
def usedList (s : SimpleSudoku) (i j : Nat) : List Nat :=
  ((List.range 9).map fun c => cellGet s i c) ++
  ((List.range 9).map fun r => cellGet s r j) ++
  ((List.range 3).flatMap fun k => (List.range 3).map fun l =>
    cellGet s (i / 3 * 3 + k) (j / 3 * 3 + l))

/-- The claim's remaining-possibility count: 9 minus the number of distinct
nonzero digits in the cell's row, column and block combined. -/
def specCount (s : SimpleSudoku) (i j : Nat) : Nat := 9 - jsSetSizeNo0 (usedList s i j)

/-- On a 9×9 grid, the count computed by the source (`mrvCount`) equals the
claim's count. -/
theorem mrvCount_eq_specCount {s : SimpleSudoku} (hWF : WF s) {i j : Nat}
    (hi : i < 9) (hj : j < 9) : mrvCount s i j = specCount s i j := by
  have hrow : s.getD i [] = (List.range 9).map fun c => cellGet s i c :=
    eq_range_map_getD (hWF.row_length hi)
  have hcol : (s.map fun r => r.getD j 0) = (List.range 9).map fun r => cellGet s r j := by
    apply List.ext_getElem (by simp [hWF.1])
    intro k h1 h2
    rw [List.getElem_map, List.getElem_map, List.getElem_range]
    unfold cellGet
    congr 1
    exact (List.getD_eq_getElem _ _ (show k < s.length by simpa using h1)).symm
  have hi3 : i - i % 3 = i / 3 * 3 := by omega
  have hj3 : j - j % 3 = j / 3 * 3 := by omega
  unfold mrvCount specCount usedList
  rw [hi3, hj3, hrow, hcol]

/-- Claim C5: on a grid with at least one empty cell, the MRV strategy
branches on the first row-major empty cell of minimal remaining-possibility
count (9 minus the number of distinct nonzero digits in its row, column and
block), and returns one child per digit 1..9, in ascending order, that keeps
the grid valid per `isSudokuValid`. -/
theorem C5_mrv_picks_first_minimum (s : SimpleSudoku) (hWF : WF s)
    (hne : getEmptyCoordinates s ≠ []) :
    ∃ i j l₁ l₂,
      getEmptyCoordinates s = l₁ ++ (i, j) :: l₂ ∧
      mrvCount s i j = specCount s i j ∧
      (∀ p ∈ getEmptyCoordinates s, specCount s i j ≤ specCount s p.1 p.2) ∧
      (∀ p ∈ l₁, specCount s i j < specCount s p.1 p.2) ∧
      minimumRemainingValueStrategy s =
        some ((digitsAsc.map fun k => cellSet s i j k).filter isSudokuValid) := by
  obtain ⟨p₀, hfm⟩ : ∃ p, firstMinBy (fun p : Coord => mrvCount s p.1 p.2)
      (getEmptyCoordinates s) = some p := by
    cases h : getEmptyCoordinates s with
    | nil => exact absurd h hne
    | cons a t =>
      cases hf : firstMinBy (fun p : Coord => mrvCount s p.1 p.2) (a :: t) with
      | none => exact absurd hf (firstMinBy_ne_none _ a t)
      | some p => exact ⟨p, rfl⟩
  obtain ⟨i, j⟩ := p₀
  have hhead : (stableSort (fun t : Nat × Nat × Nat => t.2.2)
      ((getEmptyCoordinates s).map fun p => (p.1, p.2, mrvCount s p.1 p.2))).head? =
      some (i, j, mrvCount s i j) := by
    rw [stableSort_head?, firstMinBy_map]
    rw [show (fun a : Coord => (fun t : Nat × Nat × Nat => t.2.2) (a.1, a.2, mrvCount s a.1 a.2)) =
      fun p : Coord => mrvCount s p.1 p.2 from rfl, hfm]
    rfl
  obtain ⟨rest, hsorted⟩ : ∃ rest, stableSort (fun t : Nat × Nat × Nat => t.2.2)
      ((getEmptyCoordinates s).map fun p => (p.1, p.2, mrvCount s p.1 p.2)) =
      (i, j, mrvCount s i j) :: rest := by
    cases h : stableSort (fun t : Nat × Nat × Nat => t.2.2)
        ((getEmptyCoordinates s).map fun p => (p.1, p.2, mrvCount s p.1 p.2)) with
    | nil => rw [h] at hhead; exact absurd hhead (by simp)
    | cons a t =>
      rw [h] at hhead
      exact ⟨t, by rw [Option.some.inj hhead]⟩
  obtain ⟨l₁, l₂, hdecomp, hmin, hstrict⟩ := firstMinBy_spec hfm
  have hij : (i, j) ∈ getEmptyCoordinates s := by
    rw [hdecomp]; exact List.mem_append_right _ (List.mem_cons_self _ _)
  have hijb := mem_getEmptyCoordinates.mp hij
  have hbridge : mrvCount s i j = specCount s i j :=
    mrvCount_eq_specCount hWF hijb.1 hijb.2.1
  refine ⟨i, j, l₁, l₂, hdecomp, hbridge, ?_, ?_, ?_⟩
  · intro p hp
    have hpb := mem_getEmptyCoordinates.mp hp
    rw [← hbridge, ← mrvCount_eq_specCount hWF hpb.1 hpb.2.1]
    exact hmin p hp
  · intro p hp
    have hpmem : p ∈ getEmptyCoordinates s := by
      rw [hdecomp]; exact List.mem_append_left _ hp
    have hpb := mem_getEmptyCoordinates.mp hpmem
    rw [← hbridge, ← mrvCount_eq_specCount hWF hpb.1 hpb.2.1]
    exact hstrict p hp
  · rw [minimumRemainingValueStrategy]
    rw [hsorted]

/-- Witness for C5 at the all-zero grid. -/
theorem C5_mrv_picks_first_minimum_witness :
    ∃ i j l₁ l₂,
      getEmptyCoordinates zeroGrid = l₁ ++ (i, j) :: l₂ ∧
      mrvCount zeroGrid i j = specCount zeroGrid i j ∧
      (∀ p ∈ getEmptyCoordinates zeroGrid,
        specCount zeroGrid i j ≤ specCount zeroGrid p.1 p.2) ∧
      (∀ p ∈ l₁, specCount zeroGrid i j < specCount zeroGrid p.1 p.2) ∧
      minimumRemainingValueStrategy zeroGrid =
        some ((digitsAsc.map fun k => cellSet zeroGrid i j k).filter isSudokuValid) :=
  C5_mrv_picks_first_minimum zeroGrid (by decide) (by decide)

/-! ## Infrastructure for the `ac3` loop -/

theorem set_getD_self {l : List α} {n : Nat} (d : α) (h : n < l.length) :
    l.set n (l.getD n d) = l := by
  induction l generalizing n with
  | nil => simp at h
  | cons a t ih =>
    cases n with
    | zero => simp
    | succ m => simpa using ih (by simpa using h)

theorem eq_singleton_of_length_one {l : List α} (d : α) (h : l.length = 1) :
    l = [l.getD 0 d] := by
  cases l with
  | nil => simp at h
  | cons a t =>
    cases t with
    | nil => rfl
    | cons b u => simp at h

theorem sum_set_add (l : List Nat) (n : Nat) (a : Nat) (h : n < l.length) :
    (l.set n a).sum + l.getD n 0 = l.sum + a := by
  induction l generalizing n with
  | nil => simp at h
  | cons b t ih =>
    cases n with
    | zero => simp; omega
    | succ m =>
      have := ih m (by simpa using h)
      simp only [List.set_cons_succ, List.sum_cons, List.getD_cons_succ]
      omega

/-- A domain read that yields something nonempty was in bounds. -/
theorem domGet_nonempty_bounds {d : DomainSudoku} {y x : Nat}
    (h : domGet d y x ≠ []) : y < d.length ∧ x < (d.getD y []).length := by
  unfold domGet at h
  by_cases hy : y < d.length
  · refine ⟨hy, ?_⟩
    by_cases hx : x < (d.getD y []).length
    · exact hx
    · rw [List.getD_eq_getElem?_getD (d.getD y []),
        List.getElem?_eq_none (Nat.le_of_not_lt hx)] at h
      simp at h
  · rw [List.getD_eq_getElem?_getD d, List.getElem?_eq_none (Nat.le_of_not_lt hy)] at h
    simp at h

/-- Exchange law for the total candidate count under a domain write. -/
theorem totalSize_domSet (d : DomainSudoku) {y x : Nat} (hy : y < d.length)
    (hx : x < (d.getD y []).length) (v : List Nat) :
    totalSize (domSet d y x v) + (domGet d y x).length = totalSize d + v.length := by
  unfold totalSize domSet domGet
  rw [List.map_set]
  have houter : ((d.map fun r => (r.map List.length).sum).set y
      ((((d.getD y []).set x v).map List.length).sum)).sum +
      (d.map fun r => (r.map List.length).sum).getD y 0 =
      (d.map fun r => (r.map List.length).sum).sum +
      ((((d.getD y []).set x v).map List.length).sum) :=
    sum_set_add _ y _ (by simpa using hy)
  have hgetD : (d.map fun r => (r.map List.length).sum).getD y 0 =
      ((d.getD y []).map List.length).sum := by
    rw [List.getD_eq_getElem _ _ (by simpa using hy), List.getElem_map,
      List.getD_eq_getElem _ _ hy]
  rw [hgetD] at houter
  have hinner : (((d.getD y []).set x v).map List.length).sum +
      ((d.getD y []).getD x []).length =
      ((d.getD y []).map List.length).sum + v.length := by
    rw [List.map_set]
    have := sum_set_add ((d.getD y []).map List.length) x v.length (by simpa using hx)
    have hg : ((d.getD y []).map List.length).getD x 0 = ((d.getD y []).getD x []).length := by
      rw [List.getD_eq_getElem _ _ (by simpa using hx), List.getElem_map,
        List.getD_eq_getElem _ _ hx]
    rw [hg] at this
    exact this
  omega

/-- In-range, same-group and properness of the constraint pairs
(`[yy, xx]` row-first) of a popped in-range coordinate. -/
theorem constraintCoordinates_facts :
    ∀ x ∈ List.range 9, ∀ y ∈ List.range 9, ∀ p ∈ constraintCoordinates x y,
      p.1 < 9 ∧ p.2 < 9 ∧
      (p.1 = y ∨ p.2 = x ∨ squareIndex p.2 p.1 = squareIndex x y) ∧
      ¬(p.1 = y ∧ p.2 = x) := by decide

theorem cc_facts {x y : Nat} (hx : x < 9) (hy : y < 9) {p : Coord}
    (hp : p ∈ constraintCoordinates x y) :
    p.1 < 9 ∧ p.2 < 9 ∧
    (p.1 = y ∨ p.2 = x ∨ squareIndex p.2 p.1 = squareIndex x y) ∧
    ¬(p.1 = y ∧ p.2 = x) :=
  constraintCoordinates_facts x (List.mem_range.mpr hx) y (List.mem_range.mpr hy) p hp

/-- A popped in-range coordinate has exactly 24 constraint pairs (8 row, 8
column, 8 square). -/
theorem constraintCoordinates_length :
    ∀ x ∈ List.range 9, ∀ y ∈ List.range 9,
      (constraintCoordinates x y).length = 24 := by decide

theorem cc_length {x y : Nat} (hx : x < 9) (hy : y < 9) :
    (constraintCoordinates x y).length = 24 :=
  constraintCoordinates_length x (List.mem_range.mpr hx) y (List.mem_range.mpr hy)

theorem initQueue_bounds : ∀ p ∈ initQueue, p.1 < 9 ∧ p.2 < 9 := by decide

theorem initQueue_length : initQueue.length = 81 := by decide

theorem mem_initQueue {p : Coord} (h1 : p.1 < 9) (h2 : p.2 < 9) : p ∈ initQueue := by
  cases p with
  | mk a b =>
    unfold initQueue
    rw [List.mem_flatMap]
    exact ⟨b, List.mem_range.mpr h2, List.mem_map.mpr ⟨a, List.mem_range.mpr h1, rfl⟩⟩

/-- `reviseStep` either does nothing, or removes the single element of a
singleton neighbour domain from the popped cell's domain and sets the flag. -/
theorem reviseStep_cases (y x : Nat) (st : DomainSudoku × Bool) (p : Coord) :
    reviseStep y x st p = st ∨
    ∃ v, domGet st.1 p.1 p.2 = [v] ∧ v ∈ domGet st.1 y x ∧
      reviseStep y x st p = (domSet st.1 y x ((domGet st.1 y x).erase v), true) := by
  simp only [reviseStep]
  split_ifs with h2 hc
  · right
    exact ⟨(domGet st.1 p.1 p.2).getD 0 0, eq_singleton_of_length_one _ h2,
      by simpa using hc, rfl⟩
  · left; rfl
  · left; rfl

/-- A domain write either lands on the addressed cell or leaves the grid
unchanged (out-of-range writes are no-ops of `List.set`). -/
theorem domGet_domSet_cases (d : DomainSudoku) (y x : Nat) (v : List Nat) :
    domGet (domSet d y x v) y x = v ∨ domSet d y x v = d := by
  by_cases hy : y < d.length
  · by_cases hx : x < (d.getD y []).length
    · exact Or.inl (domGet_domSet_self hy hx v)
    · right
      unfold domSet
      rw [List.set_eq_of_length_le (Nat.le_of_not_lt hx)]
      exact set_getD_self [] hy
  · right
    unfold domSet
    rw [List.set_eq_of_length_le (Nat.le_of_not_lt hy)]

/-- The neighbour pass never touches a cell other than the popped one. -/
theorem foldl_reviseStep_other (y x : Nat) (cc : List Coord)
    (st : DomainSudoku × Bool) {r c : Nat} (hrc : ¬(r = y ∧ c = x)) :
    domGet (cc.foldl (reviseStep y x) st).1 r c = domGet st.1 r c := by
  induction cc generalizing st with
  | nil => rfl
  | cons p t ih =>
    rw [List.foldl_cons, ih (reviseStep y x st p)]
    rcases reviseStep_cases y x st p with h | ⟨v, _, _, h⟩
    · rw [h]
    · rw [h]
      exact domGet_domSet_ne hrc _

/-- The neighbour pass only removes candidates, cell by cell. -/
theorem foldl_reviseStep_sublist (y x : Nat) (cc : List Coord)
    (st : DomainSudoku × Bool) (r c : Nat) :
    List.Sublist (domGet (cc.foldl (reviseStep y x) st).1 r c) (domGet st.1 r c) := by
  induction cc generalizing st with
  | nil => exact List.Sublist.refl _
  | cons p t ih =>
    rw [List.foldl_cons]
    refine (ih (reviseStep y x st p)).trans ?_
    rcases reviseStep_cases y x st p with h | ⟨v, _, _, h⟩
    · rw [h]
    · rw [h]
      by_cases hrc : r = y ∧ c = x
      · obtain ⟨rfl, rfl⟩ := hrc
        rcases domGet_domSet_cases st.1 r c ((domGet st.1 r c).erase v) with he | he
        · rw [he]; exact List.erase_sublist _ _
        · rw [he]
      · rw [domGet_domSet_ne hrc]

/-- The change flag of the pass is monotone. -/
theorem foldl_reviseStep_flag_mono (y x : Nat) (cc : List Coord)
    (st : DomainSudoku × Bool) (h : st.2 = true) :
    (cc.foldl (reviseStep y x) st).2 = true := by
  induction cc generalizing st with
  | nil => exact h
  | cons p t ih =>
    rw [List.foldl_cons]
    apply ih
    rcases reviseStep_cases y x st p with he | ⟨v, _, _, he⟩
    · rw [he]; exact h
    · rw [he]

/-- A pass that reports no change did nothing at all. -/
theorem foldl_reviseStep_nochange (y x : Nat) (cc : List Coord)
    (st : DomainSudoku × Bool) (h : (cc.foldl (reviseStep y x) st).2 = false) :
    cc.foldl (reviseStep y x) st = st := by
  induction cc generalizing st with
  | nil => rfl
  | cons p t ih =>
    rw [List.foldl_cons] at h ⊢
    rcases reviseStep_cases y x st p with he | ⟨v, _, _, he⟩
    · rw [he] at h ⊢
      exact ih st h
    · rw [he] at h
      rw [foldl_reviseStep_flag_mono y x t _ rfl] at h
      cases h

/-- The pass cannot increase the total candidate count. -/
theorem foldl_reviseStep_size_le (y x : Nat) (cc : List Coord)
    (st : DomainSudoku × Bool) :
    totalSize (cc.foldl (reviseStep y x) st).1 ≤ totalSize st.1 := by
  induction cc generalizing st with
  | nil => exact Nat.le_refl _
  | cons p t ih =>
    rw [List.foldl_cons]
    refine Nat.le_trans (ih (reviseStep y x st p)) ?_
    rcases reviseStep_cases y x st p with he | ⟨v, hv2, hv1, he⟩
    · rw [he]
    · rw [he]
      have hne : domGet st.1 y x ≠ [] := fun h0 => by simp [h0] at hv1
      obtain ⟨hy, hx⟩ := domGet_nonempty_bounds hne
      have hex := totalSize_domSet st.1 hy hx ((domGet st.1 y x).erase v)
      have hlen : ((domGet st.1 y x).erase v).length = (domGet st.1 y x).length - 1 := by
        rw [List.length_erase]
        simp [hv1]
      have hpos : 0 < (domGet st.1 y x).length := List.length_pos.mpr hne
      simp only [Prod.fst]
      omega

/-- A pass that starts unchanged and reports a change strictly shrank the
total candidate count. -/
theorem foldl_reviseStep_size_lt (y x : Nat) (cc : List Coord)
    (st : DomainSudoku × Bool) (h0 : st.2 = false)
    (h1 : (cc.foldl (reviseStep y x) st).2 = true) :
    totalSize (cc.foldl (reviseStep y x) st).1 < totalSize st.1 := by
  induction cc generalizing st with
  | nil => rw [List.foldl_nil] at h1; rw [h0] at h1; cases h1
  | cons p t ih =>
    rw [List.foldl_cons] at h1 ⊢
    rcases reviseStep_cases y x st p with he | ⟨v, hv2, hv1, he⟩
    · rw [he] at h1 ⊢
      exact ih st h0 h1
    · rw [he]
      have hne : domGet st.1 y x ≠ [] := fun h0 => by simp [h0] at hv1
      obtain ⟨hy, hx⟩ := domGet_nonempty_bounds hne
      have hex := totalSize_domSet st.1 hy hx ((domGet st.1 y x).erase v)
      have hlen : ((domGet st.1 y x).erase v).length = (domGet st.1 y x).length - 1 := by
        rw [List.length_erase]
        simp [hv1]
      have hpos : 0 < (domGet st.1 y x).length := List.length_pos.mpr hne
      have hle := foldl_reviseStep_size_le y x t
        (domSet st.1 y x ((domGet st.1 y x).erase v), true)
      simp only [Prod.fst] at hle hex ⊢
      omega

/-- The pass leaves every cell other than the popped one unchanged. -/
theorem ac3Pass_other (x y : Nat) (d : DomainSudoku) {r c : Nat}
    (h : ¬(r = y ∧ c = x)) : domGet (ac3Pass x y d).1 r c = domGet d r c :=
  foldl_reviseStep_other y x _ _ h

/-- Trichotomy of one loop body: early unsolvable stop, change with
re-enqueue, or no change. -/
theorem ac3Step_spec (x y : Nat) (q : List Coord) (d : DomainSudoku) :
    ((domGet (ac3Pass x y d).1 y x).length = 0 ∧
      ac3Step x y q d = .stop (ac3Pass x y d).1) ∨
    ((domGet (ac3Pass x y d).1 y x).length ≠ 0 ∧ (ac3Pass x y d).2 = true ∧
      ac3Step x y q d =
        .next (q ++ [(x, y)] ++ constraintCoordinates x y) (ac3Pass x y d).1) ∨
    ((domGet (ac3Pass x y d).1 y x).length ≠ 0 ∧ (ac3Pass x y d).2 = false ∧
      ac3Step x y q d = .next q (ac3Pass x y d).1) := by
  simp only [ac3Step]
  split_ifs with h1 h2
  · exact Or.inl ⟨h1, rfl⟩
  · exact Or.inr (Or.inl ⟨h1, h2, rfl⟩)
  · exact Or.inr (Or.inr ⟨h1, by simpa using h2, rfl⟩)

/-- Unfolding of the loop on a nonempty queue. -/
theorem ac3Loop_cons (fuel : Nat) (a b : Nat) (t : List Coord) (d : DomainSudoku) :
    ac3Loop (fuel + 1) ((a, b) :: t) d =
      match ac3Step a b t d with
      | .stop d' => some (d', false)
      | .next q' d' => ac3Loop fuel q' d' := rfl

/-- The loop only ever removes candidates (per cell, as a sublist). -/
theorem ac3Loop_sublist (fuel : Nat) :
    ∀ (q : List Coord) (d : DomainSudoku) (out : DomainSudoku × Bool),
      ac3Loop fuel q d = some out →
      ∀ r c, List.Sublist (domGet out.1 r c) (domGet d r c) := by
  induction fuel with
  | zero => intro q d out h; cases h
  | succ n ih =>
    intro q d out h r c
    match q with
    | [] =>
      cases h
      exact List.Sublist.refl _
    | (a, b) :: t =>
      rw [ac3Loop_cons] at h
      have hpass : ∀ r c, List.Sublist (domGet (ac3Pass a b d).1 r c) (domGet d r c) :=
        fun r c => foldl_reviseStep_sublist b a _ _ r c
      rcases ac3Step_spec a b t d with ⟨_, hs⟩ | ⟨_, _, hs⟩ | ⟨_, _, hs⟩ <;> rw [hs] at h
      · cases h
        exact hpass r c
      · exact (ih _ _ _ h r c).trans (hpass r c)
      · exact (ih _ _ _ h r c).trans (hpass r c)

/-- The defensive copy is the identity on values. -/
theorem copyGrid_eq (d : DomainSudoku) : copyGrid d = d := by
  simp [copyGrid]

/-- Per-cell sublist relation between the output and the input of `ac3`. -/
theorem ac3_sublist (d : DomainSudoku) (r c : Nat) :
    List.Sublist (domGet (ac3 d).1 r c) (domGet d r c) := by
  rw [ac3, copyGrid_eq]
  cases h : ac3Loop (fuelBound d) initQueue d with
  | none => exact List.Sublist.refl _
  | some out =>
    exact ac3Loop_sublist _ _ _ _ h r c

/-- Claim C10: `ac3` is monotone on domains — every cell of the returned
domain grid is a subset of that cell's domain in the input, whether or not
the reducer reports the grid solvable. -/
theorem C10_ac3_monotone (d : DomainSudoku) (r c : Nat) :
    domGet (ac3 d).1 r c ⊆ domGet d r c :=
  (ac3_sublist d r c).subset

/-- With the explicit measure `26 * totalSize + queue length` as fuel, the
work-queue loop always returns: the `uniq` of the program removes nothing,
but a change appends only 25 entries (the popped coordinate and its 24
constraint pairs) while strictly shrinking the total candidate count, and a
no-change pop shrinks the queue by one. -/
theorem ac3Loop_isSome (fuel : Nat) :
    ∀ (q : List Coord) (d : DomainSudoku),
      (∀ p ∈ q, p.1 < 9 ∧ p.2 < 9) →
      26 * totalSize d + q.length < fuel →
      (ac3Loop fuel q d).isSome = true := by
  induction fuel with
  | zero => intro q d _ hm; omega
  | succ n ih =>
    intro q d hq hm
    match q with
    | [] => rfl
    | (a, b) :: t =>
      rw [ac3Loop_cons]
      have hab := hq (a, b) (List.mem_cons_self _ _)
      rcases ac3Step_spec a b t d with ⟨_, hs⟩ | ⟨_, hch, hs⟩ | ⟨_, hch, hs⟩ <;> rw [hs]
      · rfl
      · -- change: the total candidate count strictly shrank, 25 entries appended
        have hlt : totalSize (ac3Pass a b d).1 < totalSize d :=
          foldl_reviseStep_size_lt b a _ _ rfl hch
        apply ih
        · intro p hp
          rcases List.mem_append.mp hp with hp1 | hp2
          · rcases List.mem_append.mp hp1 with hp3 | hp4
            · exact hq p (List.mem_cons_of_mem _ hp3)
            · rcases List.mem_singleton.mp hp4 with rfl
              exact hab
          · have := cc_facts hab.1 hab.2 hp2
            exact ⟨this.1, this.2.1⟩
        · have hqlen : (t ++ [(a, b)] ++ constraintCoordinates a b).length =
              t.length + 25 := by
            rw [List.length_append, List.length_append, cc_length hab.1 hab.2,
              List.length_singleton]
          have hlen : ((a, b) :: t).length = t.length + 1 := rfl
          omega
      · -- no change: the grid is unchanged and the queue shrank by one
        have hno : ac3Pass a b d = (d, false) :=
          foldl_reviseStep_nochange b a _ _ hch
        have hd : (ac3Pass a b d).1 = d := by rw [hno]
        rw [hd]
        apply ih t d
        · intro p hp
          exact hq p (List.mem_cons_of_mem _ hp)
        · have hlen : ((a, b) :: t).length = t.length + 1 := rfl
          omega

/-- The fuel `fuelBound` always suffices for the loop. -/
theorem ac3_isSome (d : DomainSudoku) :
    (ac3Loop (fuelBound (copyGrid d)) initQueue (copyGrid d)).isSome = true := by
  apply ac3Loop_isSome
  · exact initQueue_bounds
  · rw [fuelBound, initQueue_length]
    omega

/-- Claim C8: `ac3` terminates on every domain-grid input — with the computed
fuel `fuelBound`, the loop always reaches the empty-domain early return or the
empty-queue exit (it never runs out of fuel). -/
theorem C8_ac3_terminates (d : DomainSudoku) :
    (ac3Loop (fuelBound (copyGrid d)) initQueue (copyGrid d)).isSome = true :=
  ac3_isSome d

/-- Every in-range cell is either still queued or holds a nonempty domain;
the loop maintains this and so a `solvable` exit leaves no empty domain. -/
theorem ac3Loop_nonempty (fuel : Nat) :
    ∀ (q : List Coord) (d : DomainSudoku) (out : DomainSudoku × Bool),
      (∀ p ∈ q, p.1 < 9 ∧ p.2 < 9) →
      (∀ a b, a < 9 → b < 9 → ((a, b) ∈ q ∨ domGet d b a ≠ [])) →
      ac3Loop fuel q d = some out → out.2 = true →
      ∀ a b, a < 9 → b < 9 → domGet out.1 b a ≠ [] := by
  induction fuel with
  | zero => intro q d out _ _ h; cases h
  | succ n ih =>
    intro q d out hq hinv h hsolv a b ha hb
    match q with
    | [] =>
      cases h
      rcases hinv a b ha hb with hmem | hne
      · cases hmem
      · exact hne
    | (a0, b0) :: t =>
      rw [ac3Loop_cons] at h
      have hab0 := hq (a0, b0) (List.mem_cons_self _ _)
      rcases ac3Step_spec a0 b0 t d with ⟨_, hs⟩ | ⟨hlen, hch, hs⟩ | ⟨hlen, hch, hs⟩ <;>
        rw [hs] at h
      · cases h
        cases hsolv
      · -- change: the popped cell went back on the queue, others kept their domain
        refine ih _ _ _ ?_ ?_ h hsolv a b ha hb
        · intro p hp
          rcases List.mem_append.mp hp with hp1 | hp2
          · rcases List.mem_append.mp hp1 with hp3 | hp4
            · exact hq p (List.mem_cons_of_mem _ hp3)
            · rcases List.mem_singleton.mp hp4 with rfl
              exact hab0
          · have := cc_facts hab0.1 hab0.2 hp2
            exact ⟨this.1, this.2.1⟩
        · intro a' b' ha' hb'
          by_cases hsame : a' = a0 ∧ b' = b0
          · obtain ⟨rfl, rfl⟩ := hsame
            left
            exact List.mem_append_left _ (List.mem_append_right _ (List.mem_singleton.mpr rfl))
          · rcases hinv a' b' ha' hb' with hmem | hne
            · rcases List.mem_cons.mp hmem with heq | hmem'
              · exact absurd (Prod.mk.injEq .. ▸ heq) (by simpa using hsame)
              · left
                exact List.mem_append_left _ (List.mem_append_left _ hmem')
            · right
              rw [ac3Pass_other a0 b0 d (fun hc => hsame ⟨hc.2, hc.1⟩)]
              exact hne
      · -- no change: the pass left the grid unchanged and the popped domain is nonempty
        have hno : ac3Pass a0 b0 d = (d, false) :=
          foldl_reviseStep_nochange b0 a0 _ _ hch
        have hd : (ac3Pass a0 b0 d).1 = d := by rw [hno]
        rw [hd] at h hlen
        refine ih _ _ _ ?_ ?_ h hsolv a b ha hb
        · intro p hp
          exact hq p (List.mem_cons_of_mem _ hp)
        · intro a' b' ha' hb'
          by_cases hsame : a' = a0 ∧ b' = b0
          · obtain ⟨rfl, rfl⟩ := hsame
            right
            intro hnil
            rw [hnil] at hlen
            simp at hlen
          · rcases hinv a' b' ha' hb' with hmem | hne
            · rcases List.mem_cons.mp hmem with heq | hmem'
              · exact absurd (Prod.mk.injEq .. ▸ heq) (by simpa using hsame)
              · exact Or.inl hmem'
            · exact Or.inr hne

/-- A tiny domain grid on which processing `(0, 0)` empties its domain. -/
def Dempty : DomainSudoku := [[[5], [5]]]

/-- A solvable `ac3` run leaves every in-range domain nonempty. -/
theorem ac3_nonempty {d : DomainSudoku} (hsolv : (ac3 d).2 = true) :
    ∀ r c, r < 9 → c < 9 → domGet (ac3 d).1 r c ≠ [] := by
  intro r c hr hc
  have hterm := ac3_isSome d
  rw [copyGrid_eq] at hterm
  cases hloop : ac3Loop (fuelBound d) initQueue d with
  | none => rw [hloop] at hterm; cases hterm
  | some out =>
    have hval : ac3 d = out := by
      rw [ac3, copyGrid_eq, hloop]
      rfl
    rw [hval] at hsolv ⊢
    refine ac3Loop_nonempty _ _ _ _ initQueue_bounds ?_ hloop hsolv c r hc hr
    intro a b ha hb
    exact Or.inl (mem_initQueue ha hb)

/-- Claim C7: if the popped cell's domain becomes empty during its pass, the
loop returns `solvable = false` immediately — the result does not depend on
the remaining queue or fuel; conversely, whenever `ac3` reports
`solvable = true`, every cell of the returned grid has a nonempty domain. -/
theorem C7_ac3_empty_domain (x y : Nat) :
    (∀ (q : List Coord) (d : DomainSudoku) (fuel : Nat),
      domGet (ac3Pass x y d).1 y x = [] →
      ac3Loop (fuel + 1) ((x, y) :: q) d = some ((ac3Pass x y d).1, false)) ∧
    (∀ d : DomainSudoku, (ac3 d).2 = true →
      ∀ r c, r < 9 → c < 9 → domGet (ac3 d).1 r c ≠ []) := by
  constructor
  · intro q d fuel hempty
    rw [ac3Loop_cons]
    rcases ac3Step_spec x y q d with ⟨_, hs⟩ | ⟨hlen, _, hs⟩ | ⟨hlen, _, hs⟩ <;> rw [hs] <;>
      rw [hempty] at hlen <;> simp at hlen
  · intro d hsolv r c hr hc
    exact ac3_nonempty hsolv r c hr hc

set_option maxRecDepth 100000 in
/-- Witness for C7: the pass on `Dempty` empties cell (0,0) and the loop stops
unsolvable at once; `ac3` on the domain grid of a solved sudoku reports
solvable with all domains nonempty. -/
theorem C7_ac3_empty_domain_witness :
    ac3Loop 1 [(0, 0)] Dempty = some ((ac3Pass 0 0 Dempty).1, false) ∧
    domGet (ac3 (toDomainSudoku SFull)).1 0 0 ≠ [] :=
  ⟨(C7_ac3_empty_domain 0 0).1 [] Dempty 0 (by decide),
   (C7_ac3_empty_domain 0 0).2 (toDomainSudoku SFull) (by decide) 0 0
     (by decide) (by decide)⟩

/-- One neighbour pass preserves consistency with any filled valid grid `S`:
a candidate is only removed because a genuine same-group neighbour's domain is
the singleton of that digit, and `S` gives that neighbour that digit, so the
removed digit cannot be `S`'s digit for the popped cell. -/
theorem foldl_reviseStep_consistent {S : SimpleSudoku} (hWF : WF S)
    (hval : isSudokuValid S = true) (hfill : isSudokuFilled S = true)
    {x y : Nat} (hx : x < 9) (hy : y < 9) (cc : List Coord)
    (hcc : ∀ p ∈ cc, p.1 < 9 ∧ p.2 < 9 ∧
      (p.1 = y ∨ p.2 = x ∨ squareIndex p.2 p.1 = squareIndex x y) ∧
      ¬(p.1 = y ∧ p.2 = x))
    (st : DomainSudoku × Bool)
    (hst : ∀ r c, r < 9 → c < 9 → cellGet S r c ∈ domGet st.1 r c) :
    ∀ r c, r < 9 → c < 9 →
      cellGet S r c ∈ domGet (cc.foldl (reviseStep y x) st).1 r c := by
  induction cc generalizing st with
  | nil => exact hst
  | cons p t ih =>
    rw [List.foldl_cons]
    apply ih (fun p hp => hcc p (List.mem_cons_of_mem _ hp))
    rcases reviseStep_cases y x st p with he | ⟨v, hv2, hv1, he⟩
    · rw [he]; exact hst
    · rw [he]
      intro r c hr hc
      obtain ⟨hp1, hp2, hgrp, hpne⟩ := hcc p (List.mem_cons_self _ _)
      by_cases hrc : r = y ∧ c = x
      · obtain ⟨rfl, rfl⟩ := hrc
        have hSv : cellGet S p.1 p.2 = v := by
          have := hst p.1 p.2 hp1 hp2
          rw [hv2] at this
          simpa using this
        have hne : cellGet S r c ≠ v := by
          rw [← hSv]
          refine solution_distinct hWF hval hfill hr hc hp1 hp2
            (fun hco => hpne ⟨hco.1.symm, hco.2.symm⟩) ?_
          rcases hgrp with h1 | h1 | h1
          · exact Or.inl h1.symm
          · exact Or.inr (Or.inl h1.symm)
          · exact Or.inr (Or.inr h1.symm)
        rcases domGet_domSet_cases st.1 r c ((domGet st.1 r c).erase v) with hcase | hcase
        · rw [hcase]
          exact (List.mem_erase_of_ne hne).mpr (hst r c hr hc)
        · rw [hcase]
          exact hst r c hr hc
      · rw [domGet_domSet_ne hrc]
        exact hst r c hr hc

/-- The loop preserves consistency with any filled valid grid. -/
theorem ac3Loop_consistent {S : SimpleSudoku} (hWF : WF S)
    (hval : isSudokuValid S = true) (hfill : isSudokuFilled S = true)
    (fuel : Nat) :
    ∀ (q : List Coord) (d : DomainSudoku) (out : DomainSudoku × Bool),
      (∀ p ∈ q, p.1 < 9 ∧ p.2 < 9) →
      (∀ r c, r < 9 → c < 9 → cellGet S r c ∈ domGet d r c) →
      ac3Loop fuel q d = some out →
      ∀ r c, r < 9 → c < 9 → cellGet S r c ∈ domGet out.1 r c := by
  induction fuel with
  | zero => intro q d out _ _ h; cases h
  | succ n ih =>
    intro q d out hq hcons h
    match q with
    | [] =>
      cases h
      exact hcons
    | (a, b) :: t =>
      rw [ac3Loop_cons] at h
      have hab := hq (a, b) (List.mem_cons_self _ _)
      have hpass : ∀ r c, r < 9 → c < 9 → cellGet S r c ∈ domGet (ac3Pass a b d).1 r c :=
        foldl_reviseStep_consistent hWF hval hfill hab.1 hab.2 _
          (fun p hp => cc_facts hab.1 hab.2 hp) (d, false) hcons
      rcases ac3Step_spec a b t d with ⟨_, hs⟩ | ⟨_, _, hs⟩ | ⟨_, _, hs⟩ <;> rw [hs] at h
      · cases h
        exact hpass
      · refine ih _ _ _ ?_ hpass h
        intro p hp
        rcases List.mem_append.mp hp with hp1 | hp2
        · rcases List.mem_append.mp hp1 with hp3 | hp4
          · exact hq p (List.mem_cons_of_mem _ hp3)
          · rcases List.mem_singleton.mp hp4 with rfl
            exact hab
        · have := cc_facts hab.1 hab.2 hp2
          exact ⟨this.1, this.2.1⟩
      · refine ih _ _ _ ?_ hpass h
        intro p hp
        exact hq p (List.mem_cons_of_mem _ hp)

/-- Claim C1 (reducer safety): for every domain grid `D` and every fully
filled valid 9×9 grid `S` consistent with `D`, the domain grid returned by
`ac3 D` still contains `S`'s digit in every cell — `ac3` never removes a
digit that belongs to an actual solution. -/
theorem C1_ac3_reducer_safety (D : DomainSudoku) (S : SimpleSudoku)
    (hWF : WF S) (hfill : isSudokuFilled S = true) (hval : isSudokuValid S = true)
    (hcons : ∀ r c, r < 9 → c < 9 → cellGet S r c ∈ domGet D r c) :
    ∀ r c, r < 9 → c < 9 → cellGet S r c ∈ domGet (ac3 D).1 r c := by
  intro r c hr hc
  rw [ac3, copyGrid_eq]
  cases hloop : ac3Loop (fuelBound D) initQueue D with
  | none => exact hcons r c hr hc
  | some out =>
    exact ac3Loop_consistent hWF hval hfill _ _ _ _ initQueue_bounds hcons hloop r c hr hc

set_option maxRecDepth 100000 in
/-- Witness for C1: the solved grid `SFull` is consistent with its own domain
grid, and survives the reduction. -/
theorem C1_ac3_reducer_safety_witness :
    cellGet SFull 0 0 ∈ domGet (ac3 (toDomainSudoku SFull)).1 0 0 :=
  C1_ac3_reducer_safety (toDomainSudoku SFull) SFull (by decide) (by decide) (by decide)
    (fun r c hr hc =>
      (show ∀ r < 9, ∀ c < 9, cellGet SFull r c ∈ domGet (toDomainSudoku SFull) r c
        by decide) r hr c hc)
    0 0 (by decide) (by decide)

/-! ## Claim C3: the re-enqueue step -/

/-- The queue produced by one loop body (empty when the body halted). -/
def stepQueue : StepOut → List Coord
  | .stop _ => []
  | .next q _ => q

/-- Claim-side: the cells `(r, c)` and `(r', c')` (row, column) share a row, a
column or a 3×3 block (spec §3, Constraint Group). -/
def sameGroupCells (r c r' c' : Nat) : Bool :=
  (r == r') || (c == c') || (r / 3 * 3 + c / 3 == r' / 3 * 3 + c' / 3)

/-- A domain grid on which processing the queue entry `(8, 0)` — cell
(row 0, col 8) with domain `{1, 2}` — removes 1 (its row neighbour
(row 0, col 7) holds the singleton `{1}`) and therefore re-enqueues. -/
def D0 : DomainSudoku :=
  [[digitsAsc, digitsAsc, digitsAsc, digitsAsc, digitsAsc, digitsAsc, digitsAsc,
    [1], [1, 2]]] ++ List.replicate 8 (List.replicate 9 digitsAsc)

set_option maxRecDepth 100000 in
/-- Claim C3 (code bug): processing the popped entry `(x, y) = (8, 0)` on
`D0` shrinks the domain of cell (row 0, col 8) and re-enqueues — and both
halves of the claim fail on the code.  (1) No deduplication happens: lodash
`uniq` compares the fresh coordinate arrays by reference and removes
nothing, so the re-enqueued queue holds the pair `(0, 7)` twice (it is
pushed once as a row pair and once as a square pair).  (2) The constraint
entries are row-first `[yy, xx]` pairs while the queue is read column-first:
the entry `(0, 3)`, pushed for the row neighbour (row 0, col 3) — a genuine
neighbour — is later popped as `x = 0, y = 3` and so denotes cell
(row 3, col 0), which shares no row, column or block with (row 0, col 8). -/
theorem C3_transposed_reenqueue :
    ((0, 3) ∈ stepQueue (ac3Step 8 0 [] D0)) ∧
    (stepQueue (ac3Step 8 0 [] D0)).count (0, 7) = 2 ∧
    ¬ (stepQueue (ac3Step 8 0 [] D0)).Nodup ∧
    sameGroupCells 0 3 0 8 = true ∧
    sameGroupCells 3 0 0 8 = false := by decide

/-! ## Claim C2: shapes of the strategy children -/

/-- One pass preserves the skeleton (outer length and each row length). -/
theorem foldl_reviseStep_shape (y x : Nat) (cc : List Coord)
    (st : DomainSudoku × Bool) :
    (cc.foldl (reviseStep y x) st).1.length = st.1.length ∧
    ∀ k, ((cc.foldl (reviseStep y x) st).1.getD k []).length = (st.1.getD k []).length := by
  induction cc generalizing st with
  | nil => exact ⟨rfl, fun _ => rfl⟩
  | cons p t ih =>
    rw [List.foldl_cons]
    rcases reviseStep_cases y x st p with he | ⟨v, _, _, he⟩
    · rw [he]
      exact ih st
    · rw [he]
      obtain ⟨h1, h2⟩ := ih (domSet st.1 y x ((domGet st.1 y x).erase v), true)
      refine ⟨?_, fun k => ?_⟩
      · rw [h1]
        exact length_domSet _ _ _ _
      · rw [h2 k]
        exact row_length_domSet _ _ _ _ _

/-- The loop preserves the skeleton. -/
theorem ac3Loop_shape (fuel : Nat) :
    ∀ (q : List Coord) (d : DomainSudoku) (out : DomainSudoku × Bool),
      ac3Loop fuel q d = some out →
      out.1.length = d.length ∧
      ∀ k, (out.1.getD k []).length = (d.getD k []).length := by
  induction fuel with
  | zero => intro q d out h; cases h
  | succ n ih =>
    intro q d out h
    match q with
    | [] =>
      cases h
      exact ⟨rfl, fun _ => rfl⟩
    | (a, b) :: t =>
      rw [ac3Loop_cons] at h
      have hp := foldl_reviseStep_shape b a (constraintCoordinates a b) (d, false)
      rcases ac3Step_spec a b t d with ⟨_, hs⟩ | ⟨_, _, hs⟩ | ⟨_, _, hs⟩ <;> rw [hs] at h
      · cases h
        exact hp
      · obtain ⟨h1, h2⟩ := ih _ _ _ h
        exact ⟨h1.trans hp.1, fun k => (h2 k).trans (hp.2 k)⟩
      · obtain ⟨h1, h2⟩ := ih _ _ _ h
        exact ⟨h1.trans hp.1, fun k => (h2 k).trans (hp.2 k)⟩

/-- `ac3` preserves the skeleton of the domain grid. -/
theorem ac3_shape (d : DomainSudoku) :
    (ac3 d).1.length = d.length ∧
    ∀ k, ((ac3 d).1.getD k []).length = (d.getD k []).length := by
  rw [ac3, copyGrid_eq]
  cases h : ac3Loop (fuelBound d) initQueue d with
  | none => exact ⟨rfl, fun _ => rfl⟩
  | some out => exact ac3Loop_shape _ _ _ _ h

theorem length_toDomainSudoku (s : SimpleSudoku) :
    (toDomainSudoku s).length = s.length := by simp [toDomainSudoku]

theorem row_length_toDomainSudoku (s : SimpleSudoku) (k : Nat) :
    ((toDomainSudoku s).getD k []).length = (s.getD k []).length := by
  by_cases hk : k < s.length
  · rw [List.getD_eq_getElem _ _ (show k < (toDomainSudoku s).length by
      simpa [length_toDomainSudoku] using hk), List.getD_eq_getElem _ _ hk]
    simp [toDomainSudoku]
  · rw [List.getD_eq_getElem?_getD, List.getElem?_eq_none
      (by simpa [length_toDomainSudoku] using Nat.le_of_not_lt hk),
      List.getD_eq_getElem?_getD, List.getElem?_eq_none (Nat.le_of_not_lt hk)]
    rfl

theorem length_toSimpleSudoku (d : DomainSudoku) :
    (toSimpleSudoku d).length = d.length := by simp [toSimpleSudoku]

theorem row_length_toSimpleSudoku (d : DomainSudoku) (k : Nat) :
    ((toSimpleSudoku d).getD k []).length = (d.getD k []).length := by
  by_cases hk : k < d.length
  · rw [List.getD_eq_getElem _ _ (show k < (toSimpleSudoku d).length by
      simpa [length_toSimpleSudoku] using hk), List.getD_eq_getElem _ _ hk]
    simp [toSimpleSudoku]
  · rw [List.getD_eq_getElem?_getD, List.getElem?_eq_none
      (by simpa [length_toSimpleSudoku] using Nat.le_of_not_lt hk),
      List.getD_eq_getElem?_getD, List.getElem?_eq_none (Nat.le_of_not_lt hk)]
    rfl

theorem domGet_toDomainSudoku {s : SimpleSudoku} {i j : Nat} (hi : i < s.length)
    (hj : j < (s.getD i []).length) :
    domGet (toDomainSudoku s) i j =
      if cellGet s i j = 0 then digitsAsc else [cellGet s i j] := by
  have hrow : s.getD i [] = s[i] := List.getD_eq_getElem _ _ hi
  rw [hrow] at hj
  unfold domGet toDomainSudoku cellGet
  rw [List.getD_eq_getElem _ _ (show i < (s.map fun row =>
      row.map fun v => if v = 0 then digitsAsc else [v]).length by simpa using hi),
    List.getElem_map,
    List.getD_eq_getElem _ _ (show j < (s[i].map fun v =>
      if v = 0 then digitsAsc else [v]).length by simpa using hj),
    List.getElem_map, hrow, List.getD_eq_getElem _ _ hj]

theorem cellGet_toSimpleSudoku {d : DomainSudoku} {i j : Nat} (hi : i < d.length)
    (hj : j < (d.getD i []).length) :
    cellGet (toSimpleSudoku d) i j =
      if (domGet d i j).length = 1 then (domGet d i j).getD 0 0 else 0 := by
  have hrow : d.getD i [] = d[i] := List.getD_eq_getElem _ _ hi
  rw [hrow] at hj
  unfold cellGet toSimpleSudoku domGet
  rw [List.getD_eq_getElem _ _ (show i < (d.map fun row =>
      row.map fun dom => if dom.length = 1 then dom.getD 0 0 else 0).length by
      simpa using hi),
    List.getElem_map,
    List.getD_eq_getElem _ _ (show j < (d[i].map fun dom =>
      if dom.length = 1 then dom.getD 0 0 else 0).length by simpa using hj),
    List.getElem_map, hrow, List.getD_eq_getElem _ _ hj]

theorem cellGet_oob_left {s : SimpleSudoku} {i : Nat} (h : s.length ≤ i) (j : Nat) :
    cellGet s i j = 0 := by
  unfold cellGet
  rw [List.getD_eq_getElem?_getD s, List.getElem?_eq_none h]
  rfl

theorem cellGet_oob_right {s : SimpleSudoku} {i j : Nat}
    (h : (s.getD i []).length ≤ j) : cellGet s i j = 0 := by
  unfold cellGet
  rw [List.getD_eq_getElem?_getD (s.getD i []), List.getElem?_eq_none h]
  rfl

theorem digitsAsc_bounds : ∀ k ∈ digitsAsc, 1 ≤ k ∧ k ≤ 9 := by decide

theorem firstEmpty_some {s : SimpleSudoku} {i j : Nat}
    (h : firstEmpty s = some (i, j)) : i < 9 ∧ j < 9 ∧ cellGet s i j = 0 := by
  have h1 := List.find?_some h
  have h2 := mem_rowMajor.mp (List.mem_of_find?_eq_some h)
  exact ⟨h2.1, h2.2, by simpa using h1⟩

theorem sublist_singleton_of_ne_nil {l : List α} {a : α}
    (h : List.Sublist l [a]) (hne : l ≠ []) : l = [a] := by
  have hlen : l.length ≤ 1 := by simpa using h.length_le
  have hpos : 0 < l.length := List.length_pos.mpr hne
  exact h.eq_of_length (by simp; omega)

/-- The claim-side child contract of the three simple strategies: the child
equals the parent except at a single previously-empty in-range cell now
holding a digit 1..9. -/
def diffOne (s c : SimpleSudoku) : Prop :=
  ∃ i j, i < 9 ∧ j < 9 ∧ cellGet s i j = 0 ∧
    1 ≤ cellGet c i j ∧ cellGet c i j ≤ 9 ∧
    ∀ r q, ¬(r = i ∧ q = j) → cellGet c r q = cellGet s r q

/-- The weaker contract that `AC3Strategy` actually satisfies: the child
agrees with the parent except at previously-empty cells, each now holding a
digit 1..9 (possibly several cells at once). -/
def extendsOnly (s c : SimpleSudoku) : Prop :=
  ∀ r q, cellGet c r q = cellGet s r q ∨
    (cellGet s r q = 0 ∧ 1 ≤ cellGet c r q ∧ cellGet c r q ≤ 9)

theorem diffOne_cellSet {s : SimpleSudoku} (hWF : WF s) {i j k : Nat}
    (hi : i < 9) (hj : j < 9) (h0 : cellGet s i j = 0) (hk : k ∈ digitsAsc) :
    diffOne s (cellSet s i j k) := by
  have hilen : i < s.length := by rw [hWF.1]; exact hi
  have hjlen : j < (s.getD i []).length := by rw [hWF.row_length hi]; exact hj
  obtain ⟨hk1, hk9⟩ := digitsAsc_bounds k hk
  refine ⟨i, j, hi, hj, h0, ?_, ?_, ?_⟩
  · rw [cellGet_cellSet_self hilen hjlen]; exact hk1
  · rw [cellGet_cellSet_self hilen hjlen]; exact hk9
  · intro r q hrq
    exact cellGet_cellSet_ne hrq k

/-- Membership in the domain-splitting candidate list of `AC3Strategy`. -/
theorem mem_splitCells {R : DomainSudoku} {p : Coord} :
    p ∈ ((List.range 9).flatMap fun i => (List.range 9).filterMap fun j =>
      if 1 < (domGet R i j).length then some (i, j) else none) ↔
    p.1 < 9 ∧ p.2 < 9 ∧ 1 < (domGet R p.1 p.2).length := by
  cases p with
  | mk i j =>
    rw [List.mem_flatMap]
    constructor
    · rintro ⟨a, ha, hmem⟩
      rw [List.mem_filterMap] at hmem
      obtain ⟨b, hb, heq⟩ := hmem
      split at heq
      · obtain ⟨rfl, rfl⟩ := Prod.mk.injEq .. ▸ Option.some.inj heq
        exact ⟨List.mem_range.mp ha, List.mem_range.mp hb, by assumption⟩
      · exact absurd heq (by simp)
    · rintro ⟨hi, hj, h1⟩
      refine ⟨i, List.mem_range.mpr hi,
        List.mem_filterMap.mpr ⟨j, List.mem_range.mpr hj, ?_⟩⟩
      rw [if_pos h1]

/-- Row lengths of the grid produced by `ac3` on `toDomainSudoku s`. -/
theorem ac3_toDomain_shape {s : SimpleSudoku} (hWF : WF s) :
    (ac3 (toDomainSudoku s)).1.length = 9 ∧
    ∀ k, k < 9 → (((ac3 (toDomainSudoku s)).1.getD k []).length = 9) := by
  obtain ⟨h1, h2⟩ := ac3_shape (toDomainSudoku s)
  refine ⟨by rw [h1, length_toDomainSudoku, hWF.1], fun k hk => ?_⟩
  rw [h2 k, row_length_toDomainSudoku, hWF.row_length hk]

/-- Cell-level description of `toSimpleSudoku` applied to a reduced domain
grid `R` (9×9, cellwise sublist of `toDomainSudoku s`, nowhere empty): each
cell either kept the original digit of `s` or was an empty cell of `s` now
holding a digit 1..9 (or still 0). -/
theorem split_simple_cases {s : SimpleSudoku} (hWF : WF s) (R : DomainSudoku)
    (hlen : R.length = 9) (hrow : ∀ k, k < 9 → (R.getD k []).length = 9)
    (hsub : ∀ i j, i < 9 → j < 9 →
      List.Sublist (domGet R i j) (domGet (toDomainSudoku s) i j))
    (hne : ∀ i j, i < 9 → j < 9 → domGet R i j ≠ []) (r q : Nat) :
    cellGet (toSimpleSudoku R) r q = cellGet s r q ∨
    (cellGet s r q = 0 ∧ 1 ≤ cellGet (toSimpleSudoku R) r q ∧
      cellGet (toSimpleSudoku R) r q ≤ 9) := by
  by_cases hr : r < 9
  · by_cases hq : q < 9
    · have hrlen : r < R.length := by rw [hlen]; exact hr
      have hqlen : q < (R.getD r []).length := by rw [hrow r hr]; exact hq
      rw [cellGet_toSimpleSudoku hrlen hqlen]
      have hsubrq := hsub r q hr hq
      have hnerq := hne r q hr hq
      have hd := domGet_toDomainSudoku (s := s) (i := r) (j := q)
        (by rw [hWF.1]; exact hr) (by rw [hWF.row_length hr]; exact hq)
      by_cases h0 : cellGet s r q = 0
      · rw [if_pos h0] at hd
        rw [hd] at hsubrq
        by_cases h1 : (domGet R r q).length = 1
        · rw [if_pos h1]
          obtain ⟨w, hw⟩ : ∃ w, domGet R r q = [w] :=
            ⟨_, eq_singleton_of_length_one 0 h1⟩
          rw [hw] at hsubrq ⊢
          have hb := digitsAsc_bounds w (hsubrq.subset (List.mem_singleton.mpr rfl))
          exact Or.inr ⟨h0, by simpa using hb.1, by simpa using hb.2⟩
        · rw [if_neg h1]
          exact Or.inl h0.symm
      · rw [if_neg h0] at hd
        rw [hd] at hsubrq
        have hsing := sublist_singleton_of_ne_nil hsubrq hnerq
        rw [hsing]
        simp
    · have h1 : ((toSimpleSudoku R).getD r []).length ≤ q := by
        rw [row_length_toSimpleSudoku, hrow r hr]
        omega
      have h2 : (s.getD r []).length ≤ q := by
        rw [hWF.row_length hr]; omega
      rw [cellGet_oob_right h1, cellGet_oob_right h2]
      exact Or.inl rfl
  · have h1 : (toSimpleSudoku R).length ≤ r := by
      rw [length_toSimpleSudoku, hlen]; omega
    have h2 : s.length ≤ r := by rw [hWF.1]; omega
    rw [cellGet_oob_left h1, cellGet_oob_left h2]
    exact Or.inl rfl

/-- Every child emitted by the branching part of `AC3Strategy` agrees with
the original grid on filled cells and fills only previously-empty cells with
digits 1..9. -/
theorem domainSplit_children {s : SimpleSudoku} (hWF : WF s)
    (r : DomainSudoku × Bool)
    (hlen : r.1.length = 9) (hrow : ∀ k, k < 9 → ((r.1.getD k []).length = 9))
    (hsub : ∀ i j, i < 9 → j < 9 →
      List.Sublist (domGet r.1 i j) (domGet (toDomainSudoku s) i j))
    (hne : r.2 = true → ∀ i j, i < 9 → j < 9 → domGet r.1 i j ≠ []) :
    ∀ l, domainSplit r = some l → ∀ c ∈ l, extendsOnly s c := by
  intro l hl c hc
  unfold domainSplit at hl
  split at hl
  · -- unsolvable: no children
    cases hl
    cases hc
  · rename_i hslv
    have hsolv : r.2 = true := by
      revert hslv; cases r.2 <;> simp
    have hcases := split_simple_cases hWF r.1 hlen hrow hsub (hne hsolv)
    split at hl
    · -- already solved by propagation: the single child is the projection
      cases hl
      rcases List.mem_singleton.mp hc with rfl
      exact fun a b => hcases a b
    · split at hl
      · cases hl
      · rename_i i j rest hsorted
        cases hl
        obtain ⟨n, hn, rfl⟩ := List.mem_map.mp hc
        have hhd : ((i, j) : Coord) ∈ stableSort
            (fun p : Coord => (domGet r.1 p.1 p.2).length)
            ((List.range 9).flatMap fun i => (List.range 9).filterMap fun j =>
              if 1 < (domGet r.1 i j).length then some (i, j) else none) := by
          rw [hsorted]; exact List.mem_cons_self _ _
        rw [mem_stableSort] at hhd
        obtain ⟨hi, hj, hbig⟩ := mem_splitCells.mp hhd
        have hbig2 : 1 < (domGet r.1 i j).length := hbig
        have hilen : i < (toSimpleSudoku r.1).length := by
          rw [length_toSimpleSudoku, hlen]; exact hi
        have hjlen : j < ((toSimpleSudoku r.1).getD i []).length := by
          rw [row_length_toSimpleSudoku, hrow i hi]; exact hj
        have h0 : cellGet s i j = 0 := by
          by_contra h0
          have hd := domGet_toDomainSudoku (s := s) (i := i) (j := j)
            (by rw [hWF.1]; exact hi) (by rw [hWF.row_length hi]; exact hj)
          rw [if_neg h0] at hd
          have hsubij := hsub i j hi hj
          rw [hd] at hsubij
          have := hsubij.length_le
          simp at this
          omega
        have hnd : n ∈ digitsAsc := by
          have hsubij := hsub i j hi hj
          have hd := domGet_toDomainSudoku (s := s) (i := i) (j := j)
            (by rw [hWF.1]; exact hi) (by rw [hWF.row_length hi]; exact hj)
          rw [if_pos h0] at hd
          rw [hd] at hsubij
          exact hsubij.subset hn
        obtain ⟨hn1, hn9⟩ := digitsAsc_bounds n hnd
        intro a b
        by_cases hab : a = i ∧ b = j
        · obtain ⟨rfl, rfl⟩ := hab
          rw [cellGet_cellSet_self hilen hjlen]
          exact Or.inr ⟨h0, hn1, hn9⟩
        · rw [cellGet_cellSet_ne hab]
          exact hcases a b

set_option maxRecDepth 100000 in
/-- Claim C2, amended: children of `bruteForceStrategy`,
`withValidCheckStrategy` and `minimumRemainingValueStrategy` differ from the
parent in exactly one previously-empty cell, set to a digit 1..9; children of
`AC3Strategy` agree with the parent except at previously-empty cells, each
now holding a digit 1..9, and a single child can fill several such cells at
once (constraint propagation runs before branching). -/
theorem C2_amended_strategy_children (s : SimpleSudoku) (hWF : WF s) :
    (∀ c ∈ bruteForceStrategy s, diffOne s c) ∧
    (∀ c ∈ withValidCheckStrategy s, diffOne s c) ∧
    (∀ l, minimumRemainingValueStrategy s = some l → ∀ c ∈ l, diffOne s c) ∧
    (∀ l, AC3Strategy s = some l → ∀ c ∈ l, extendsOnly s c) := by
  refine ⟨?_, ?_, ?_, ?_⟩
  · intro c hc
    rw [bruteForceStrategy] at hc
    cases hfe : firstEmpty s with
    | none => rw [hfe] at hc; cases hc
    | some p =>
      obtain ⟨i, j⟩ := p
      rw [hfe] at hc
      obtain ⟨k, hk, rfl⟩ := List.mem_map.mp hc
      obtain ⟨hi, hj, h0⟩ := firstEmpty_some hfe
      exact diffOne_cellSet hWF hi hj h0 hk
  · intro c hc
    rw [withValidCheckStrategy] at hc
    cases hfe : firstEmpty s with
    | none => rw [hfe] at hc; cases hc
    | some p =>
      obtain ⟨i, j⟩ := p
      rw [hfe] at hc
      obtain ⟨k, hk, rfl⟩ := List.mem_map.mp (List.mem_of_mem_filter hc)
      obtain ⟨hi, hj, h0⟩ := firstEmpty_some hfe
      exact diffOne_cellSet hWF hi hj h0 hk
  · intro l hl c hc
    rw [minimumRemainingValueStrategy] at hl
    cases hsorted : stableSort (fun t : Nat × Nat × Nat => t.2.2)
        ((getEmptyCoordinates s).map fun p => (p.1, p.2, mrvCount s p.1 p.2)) with
    | nil => rw [hsorted] at hl; cases hl
    | cons hd rest =>
      obtain ⟨i, j, cnt⟩ := hd
      rw [hsorted] at hl
      cases hl
      obtain ⟨k, hk, rfl⟩ := List.mem_map.mp (List.mem_of_mem_filter hc)
      have hhd : ((i, j, cnt) : Nat × Nat × Nat) ∈ stableSort (fun t : Nat × Nat × Nat => t.2.2)
          ((getEmptyCoordinates s).map fun p => (p.1, p.2, mrvCount s p.1 p.2)) := by
        rw [hsorted]; exact List.mem_cons_self _ _
      rw [mem_stableSort] at hhd
      obtain ⟨p, hp, hpe⟩ := List.mem_map.mp hhd
      obtain ⟨hp1, hp2, hp0⟩ := mem_getEmptyCoordinates.mp hp
      obtain ⟨rfl, rfl, -⟩ : p.1 = i ∧ p.2 = j ∧ mrvCount s p.1 p.2 = cnt := by
        have h1 := congrArg Prod.fst hpe
        have h2 := congrArg (fun t : Nat × Nat × Nat => t.2.1) hpe
        have h3 := congrArg (fun t : Nat × Nat × Nat => t.2.2) hpe
        exact ⟨h1, h2, h3⟩
      exact diffOne_cellSet hWF hp1 hp2 hp0 hk
  · intro l hl c hc
    unfold AC3Strategy at hl
    obtain ⟨h1, h2⟩ := ac3_toDomain_shape hWF
    exact domainSplit_children hWF (ac3 (toDomainSudoku s)) h1 h2
      (fun i j _ _ => ac3_sublist (toDomainSudoku s) i j)
      (fun hb i j hi hj => ac3_nonempty hb i j hi hj) l hl c hc

/-- Witness for the amended C2 at the two-hole grid `G2`. -/
theorem C2_amended_strategy_children_witness :
    (∀ c ∈ bruteForceStrategy G2, diffOne G2 c) ∧
    (∀ c ∈ withValidCheckStrategy G2, diffOne G2 c) ∧
    (∀ l, minimumRemainingValueStrategy G2 = some l → ∀ c ∈ l, diffOne G2 c) ∧
    (∀ l, AC3Strategy G2 = some l → ∀ c ∈ l, extendsOnly G2 c) :=
  C2_amended_strategy_children G2 (by decide)

set_option maxRecDepth 1000000 in
/-- Counterexample to C2 as stated: on `G2` (a solved grid with two
independent holes), `AC3Strategy` returns the single child `SFull`, which
differs from `G2` in two cells, not exactly one. -/
theorem C2_counterexample_two_cells :
    AC3Strategy G2 = some [SFull] ∧
    (rowMajor.filter fun p => cellGet SFull p.1 p.2 != cellGet G2 p.1 p.2).length = 2 := by
  decide

/-! ## Claim C6: `ac3` does not mutate its argument (heap-level embedding)

The value-level embedding above cannot distinguish in-place mutation from
copying, so the aliasing claim is settled on a heap-level rendering of the
same source lines: cell arrays live in a store indexed by addresses, the
caller passes a grid of addresses, line 21 allocates 81 fresh cell arrays,
and every later splice writes only to those fresh addresses. -/

/-- The heap: the candidate array held at each allocated address. -/
abbrev Store := List (List Nat)

/-- A 9×9 grid of addresses of cell arrays. -/
abbrev AddrGrid := List (List Nat)

def storeGet (σ : Store) (a : Nat) : List Nat := σ.getD a []

def storeSet (σ : Store) (a : Nat) (v : List Nat) : Store := σ.set a v

/-- The address of cell `sudoku[y][x]`. -/
def addrAt (A : AddrGrid) (y x : Nat) : Nat := (A.getD y []).getD x 0

/-- Heap-level `reviseStep` (ac3.ts 79-100): `splice` mutates the array at
the popped cell's address; line 99 stores the same reference back into the
row array and changes no cell array. -/
def reviseStepRef (A : AddrGrid) (y x : Nat) (st : Store × Bool) (p : Coord) :
    Store × Bool :=
  let domain2 := storeGet st.1 (addrAt A p.1 p.2)
  if domain2.length = 1 then
    let v := domain2.getD 0 0
    let domain1 := storeGet st.1 (addrAt A y x)
    if domain1.contains v then
      (storeSet st.1 (addrAt A y x) (domain1.erase v), true)
    else st
  else st

/-- Result of one heap-level loop body. -/
inductive StepOutRef where
  /-- the early unsolvable return, with the store at that moment. -/
  | halt (σ : Store) (solvable : Bool)
  /-- keep looping. -/
  | next (q : List Coord) (σ : Store)

/-- Heap-level loop body (ac3.ts 44-116). -/
def ac3StepRef (A : AddrGrid) (x y : Nat) (q : List Coord) (σ : Store) :
    StepOutRef :=
  let st := (constraintCoordinates x y).foldl (reviseStepRef A y x) (σ, false)
  if (storeGet st.1 (addrAt A y x)).length = 0 then .halt st.1 false
  else if st.2 then .next (uniqJS (q ++ [(x, y)] ++ constraintCoordinates x y)) st.1
  else .next q st.1

/-- Heap-level `while` loop; the final store is returned even when the fuel
runs out (`none` verdict), so the frame property below holds for any fuel. -/
def ac3LoopRef (A : AddrGrid) : Nat → List Coord → Store → Store × Option Bool
  | 0, _, σ => (σ, none)
  | _ + 1, [], σ => (σ, some true)
  | fuel + 1, c :: q, σ =>
    match ac3StepRef A c.1 c.2 q σ with
    | .halt σ2 b => (σ2, some b)
    | .next q2 σ2 => ac3LoopRef A fuel q2 σ2

/-- The defensive copy `sudoku.map(r => r.map(c => c.slice()))` (ac3.ts 21)
at heap level: allocate 81 fresh cell arrays past the end of the store,
holding the caller's current cell contents, and return the fresh address
grid that the rest of `ac3` works on. -/
def copyAlloc (σ : Store) (A : AddrGrid) : Store × AddrGrid :=
  (σ ++ ((List.range 9).flatMap fun y =>
      (List.range 9).map fun x => storeGet σ (addrAt A y x)),
   (List.range 9).map fun y => (List.range 9).map fun x => σ.length + 9 * y + x)

/-- Heap-level `ac3` (ac3.ts 16-119): copy the caller's arrays, then run the
loop touching only the fresh addresses. -/
def ac3Ref (σ : Store) (A : AddrGrid) (fuel : Nat) : Store × Option Bool :=
  ac3LoopRef (copyAlloc σ A).2 fuel initQueue (copyAlloc σ A).1

theorem storeGet_storeSet_ne {σ : Store} {a b : Nat} (hab : b ≠ a) (v : List Nat) :
    storeGet (storeSet σ b v) a = storeGet σ a :=
  getD_set_ne hab v []

/-- One heap-level revise writes only the popped cell's address. -/
theorem reviseStepRef_cases (A : AddrGrid) (y x : Nat) (st : Store × Bool)
    (p : Coord) :
    reviseStepRef A y x st p = st ∨
    ∃ w, reviseStepRef A y x st p = (storeSet st.1 (addrAt A y x) w, true) := by
  simp only [reviseStepRef]
  split_ifs
  · exact Or.inr ⟨_, rfl⟩
  · exact Or.inl rfl
  · exact Or.inl rfl

/-- The heap-level pass leaves every address below the popped cell's address
bound unchanged. -/
theorem foldl_reviseStepRef_low (A : AddrGrid) (y x : Nat) (cc : List Coord)
    {n : Nat} (hcell : n ≤ addrAt A y x) :
    ∀ (st : Store × Bool) (a : Nat), a < n →
      storeGet (cc.foldl (reviseStepRef A y x) st).1 a = storeGet st.1 a := by
  induction cc with
  | nil => intro st a _; rfl
  | cons p t ih =>
    intro st a ha
    rw [List.foldl_cons, ih (reviseStepRef A y x st p) a ha]
    rcases reviseStepRef_cases A y x st p with he | ⟨w, he⟩
    · rw [he]
    · rw [he]
      exact storeGet_storeSet_ne (by omega) w

/-- Trichotomy of the heap-level loop body. -/
theorem ac3StepRef_spec (A : AddrGrid) (x y : Nat) (q : List Coord) (σ : Store) :
    (ac3StepRef A x y q σ =
      .halt ((constraintCoordinates x y).foldl (reviseStepRef A y x) (σ, false)).1 false) ∨
    (ac3StepRef A x y q σ =
      .next (q ++ [(x, y)] ++ constraintCoordinates x y)
        ((constraintCoordinates x y).foldl (reviseStepRef A y x) (σ, false)).1) ∨
    (ac3StepRef A x y q σ =
      .next q ((constraintCoordinates x y).foldl (reviseStepRef A y x) (σ, false)).1) := by
  simp only [ac3StepRef]
  split_ifs
  · exact Or.inl rfl
  · exact Or.inr (Or.inl rfl)
  · exact Or.inr (Or.inr rfl)

/-- Frame property of the heap-level loop: as long as every address of the
working grid lies at or above `n` and the queue stays in range, addresses
below `n` are never written. -/
theorem ac3LoopRef_low (A : AddrGrid) {n : Nat}
    (hA : ∀ y x, y < 9 → x < 9 → n ≤ addrAt A y x) (fuel : Nat) :
    ∀ (q : List Coord) (σ : Store),
      (∀ p ∈ q, p.1 < 9 ∧ p.2 < 9) →
      ∀ a, a < n → storeGet (ac3LoopRef A fuel q σ).1 a = storeGet σ a := by
  induction fuel with
  | zero => intro q σ _ a _; rfl
  | succ m ih =>
    intro q σ hq a ha
    match q with
    | [] => rfl
    | (a0, b0) :: t =>
      have hab0 := hq (a0, b0) (List.mem_cons_self _ _)
      have hlow := foldl_reviseStepRef_low A b0 a0 (constraintCoordinates a0 b0)
        (hA b0 a0 hab0.2 hab0.1) (σ, false) a ha
      show storeGet (match ac3StepRef A a0 b0 t σ with
        | .halt σ2 b => (σ2, some b)
        | .next q2 σ2 => ac3LoopRef A m q2 σ2).1 a = storeGet σ a
      rcases ac3StepRef_spec A a0 b0 t σ with hs | hs | hs <;> rw [hs]
      · exact hlow
      · rw [ih _ _ ?_ a ha]
        · exact hlow
        · intro p hp
          rcases List.mem_append.mp hp with hp1 | hp2
          · rcases List.mem_append.mp hp1 with hp3 | hp4
            · exact hq p (List.mem_cons_of_mem _ hp3)
            · rcases List.mem_singleton.mp hp4 with rfl
              exact hab0
          · have := cc_facts hab0.1 hab0.2 hp2
            exact ⟨this.1, this.2.1⟩
      · rw [ih _ _ (fun p hp => hq p (List.mem_cons_of_mem _ hp)) a ha]
        exact hlow

/-- Claim C6: the heap-level `ac3` never writes to any pre-existing address:
for every store, address grid and fuel, every array the caller could reach
before the call — in particular every cell of the caller's domain grid — is
unchanged after it.  All removals happen on the 81 arrays freshly allocated
by the copy at ac3.ts line 21. -/
theorem C6_ac3Ref_no_mutation (σ : Store) (A : AddrGrid) (fuel : Nat)
    (a : Nat) (ha : a < σ.length) :
    storeGet (ac3Ref σ A fuel).1 a = storeGet σ a := by
  unfold ac3Ref
  have hA : ∀ y x, y < 9 → x < 9 → σ.length ≤ addrAt (copyAlloc σ A).2 y x := by
    intro y x hy hx
    have h2 : (copyAlloc σ A).2 = (List.range 9).map fun yy =>
        (List.range 9).map fun xx => σ.length + 9 * yy + xx := rfl
    rw [h2]
    unfold addrAt
    rw [List.getD_eq_getElem (List.map (fun yy =>
      List.map (fun xx => σ.length + 9 * yy + xx) (List.range 9)) (List.range 9)) []
      (by simpa using hy)]
    rw [List.getElem_map, List.getElem_range]
    rw [List.getD_eq_getElem _ _ (by simpa using hx)]
    rw [List.getElem_map, List.getElem_range]
    omega
  rw [ac3LoopRef_low _ hA fuel initQueue _ initQueue_bounds a ha]
  unfold copyAlloc storeGet
  rw [List.getD_eq_getElem?_getD, List.getElem?_append_left ha,
    List.getD_eq_getElem?_getD]

/-- Witness for C6 on a one-address store, with enough fuel for the loop to
pop the whole initial queue. -/
theorem C6_ac3Ref_no_mutation_witness :
    storeGet (ac3Ref [[1]] [] 100).1 0 = storeGet [[1]] 0 :=
  C6_ac3Ref_no_mutation [[1]] [] 100 0 (by decide)

end Sudoku
